import Mathlib

/-!
Verification of the toylang AEG (Abstract Event Graph) analyzer.

This file shallowly embeds the analyzer core of the repository:
the AST (crate `ast`), the AEG builder (`aeg/src/aeg.rs`), the
program-order oracle (`transitive_po_neighbors`, `is_po_connected`,
`po_between`) and the critical-cycle enumerator
(`aeg/src/critical_cycles.rs`).

Modelling conventions:
* petgraph `DiGraph<Node, AegEdge>` is a list of node payloads
  (positions are the `NodeIndex`es) plus a list of directed labelled
  edges (positions are the `EdgeIndex`es).
* Rust panics (`todo!`, `unimplemented!`, `unwrap` on `None`) are
  modelled by `Option`/explicit failure constructors.  `debug_assert!`
  is compiled out in release builds and is not modelled.
* The enumerator's outer DFS loop is modelled with an explicit fuel
  parameter that is large enough for every terminating run; running
  out of fuel is a separate result constructor, distinguished from a
  panic.
-/

namespace Toy

/-- `ast::Name` (variable names). -/
abbrev Name := String

/-- `aeg::ThreadId`. -/
abbrev ThreadId := String

/-- `aeg::MemoryId`. -/
abbrev MemoryId := String

/-- `ast::Expr`. -/
inductive Expr where
  | Num (n : Nat)
  | Var (v : Name)
deriving DecidableEq, Repr

/-- `ast::CondExpr`. -/
inductive CondExpr where
  | Neg (e : CondExpr)
  | And (e1 e2 : CondExpr)
  | Eq (e1 e2 : Expr)
  | Leq (e1 e2 : Expr)
deriving DecidableEq, Repr

/-- `ast::FenceType` (WR/WW/RW/RR fences of the source language). -/
inductive FenceType where
  | WR
  | WW
  | RW
  | RR
deriving DecidableEq, Repr

mutual

/-- `ast::Statement`.  The `Vec<Statement>` bodies of `If`/`While` are
represented by the isomorphic mutual list type `StmtList`, which lets
every function on statements be compiled by structural recursion (and
hence evaluated by the kernel). -/
inductive Statement where
  | Assign (n : Name) (e : Expr)
  | Modify (n : Name) (e : Expr)
  | Fence (k : FenceType)
  | If (c : CondExpr) (thn els : StmtList)
  | While (c : CondExpr) (body : StmtList)

/-- A list of statements (isomorphic to `List Statement`). -/
inductive StmtList where
  | nil
  | cons (s : Statement) (rest : StmtList)

end

/-- Builds a `StmtList` from a `List Statement`. -/
def stmtList : List Statement → StmtList
  | [] => .nil
  | s :: r => .cons s (stmtList r)

/-- `ast::Init` (an init-block statement). -/
inductive InitStmt where
  | Assign (n : Name) (e : Expr)
deriving DecidableEq, Repr

/-- `ast::Thread`. -/
structure Thread where
  name : String
  instructions : StmtList

/-- `ast::Program`.  (The `assert` block is irrelevant to the analyzer
and omitted; `create_aeg` reads only `threads` and `global_vars`.) -/
structure Program where
  init : List InitStmt
  threads : List Thread
  global_vars : List Name

/-- `aeg::Fence` (the fence flavours an AEG fence node can carry). -/
inductive Fence where
  | Full
  | LightWeight
  | Control
deriving DecidableEq, Repr

/-- `aeg::Node`: an event of the abstract event graph. -/
inductive Node where
  | Read (t : ThreadId) (m : MemoryId)
  | Write (t : ThreadId) (m : MemoryId)
  | Fence (t : ThreadId) (k : Fence)
deriving DecidableEq, Repr

/-- `Node::address`. -/
def Node.address : Node → Option MemoryId
  | .Read _ m => some m
  | .Write _ m => some m
  | .Fence _ _ => none

/-- `Node::thread_name`. -/
def Node.threadName : Node → ThreadId
  | .Read t _ => t
  | .Write t _ => t
  | .Fence t _ => t

/-- Whether a node is a `Write` event (`matches!(node, Node::Write(..))`). -/
def Node.isWrite : Node → Bool
  | .Write _ _ => true
  | _ => false

/-- `aeg::AegEdge`. -/
inductive AegEdge where
  | ProgramOrder
  | Competing
deriving DecidableEq, Repr

/-- One directed labelled edge of the petgraph `DiGraph`. -/
structure AegE where
  src : Nat
  tgt : Nat
  weight : AegEdge
deriving DecidableEq, Repr

/-- The petgraph `DiGraph<Node, AegEdge>`: node payloads are listed in
insertion order (the position is the `NodeIndex`), edges likewise
(the position is the `EdgeIndex`). -/
structure Aeg where
  nodes : List Node
  edges : List AegE
deriving DecidableEq, Repr

/-- Node payload lookup (`graph[n]`, total variant). -/
def nodeAt (g : Aeg) (n : Nat) : Option Node :=
  g.nodes.get? n

/-- `graph[n].address()` with out-of-bounds collapsed to `none`
(out of bounds never happens for indices produced by the builder). -/
def addrAt (g : Aeg) (n : Nat) : Option MemoryId :=
  (nodeAt g n).bind Node.address

/-- petgraph `Graph::add_node`: appends the payload, returns the fresh
index. -/
def addNode (g : Aeg) (nd : Node) : Aeg × Nat :=
  ({ g with nodes := g.nodes ++ [nd] }, g.nodes.length)

/-- petgraph `Graph::find_edge` (position of an `a → b` edge). -/
def findEdge (g : Aeg) (a b : Nat) : Option Nat :=
  g.edges.findIdx? (fun e => decide (e.src = a ∧ e.tgt = b))

/-- petgraph `Graph::update_edge`: overwrite the weight of an existing
`a → b` edge, otherwise append a new edge. -/
def updateEdge (g : Aeg) (a b : Nat) (w : AegEdge) : Aeg :=
  match findEdge g a b with
  | some i => { g with edges := g.edges.set i ⟨a, b, w⟩ }
  | none => { g with edges := g.edges ++ [⟨a, b, w⟩] }

/-- petgraph `Graph::add_edge` (unconditional append). -/
def addEdgeRaw (g : Aeg) (a b : Nat) (w : AegEdge) : Aeg :=
  { g with edges := g.edges ++ [⟨a, b, w⟩] }

/-- `aeg.rs` `connect_previous`: po edge from every node of `last`
to `cur`, skipping a would-be self loop. -/
def connectPrevious (g : Aeg) (last : List Nat) (cur : Nat) : Aeg :=
  last.foldl (fun g n => if n ≠ cur then updateEdge g n cur .ProgramOrder else g) g

/-- `aeg.rs` `handle_expression`: a global read in an expression emits a
`Read` node chained po-after the previous read of the same condition. -/
def handleExpression (globals : List Name) (t : ThreadId) (g : Aeg)
    (reads : List Nat) : Expr → Aeg × List Nat
  | .Num _ => (g, reads)
  | .Var v =>
    if v ∈ globals then
      let (g1, node) := addNode g (.Read t v)
      let g2 := match reads.getLast? with
        | some i => addEdgeRaw g1 i node .ProgramOrder
        | none => g1
      (g2, reads ++ [node])
    else (g, reads)

/-- `aeg.rs` `handle_condition`. -/
def handleCondition (globals : List Name) (t : ThreadId) (g : Aeg)
    (reads : List Nat) : CondExpr → Aeg × List Nat
  | .Neg e => handleCondition globals t g reads e
  | .And e1 e2 =>
    let (g1, r1) := handleCondition globals t g reads e1
    handleCondition globals t g1 r1 e2
  | .Eq e1 e2 =>
    let (g1, r1) := handleExpression globals t g reads e1
    handleExpression globals t g1 r1 e2
  | .Leq e1 e2 =>
    let (g1, r1) := handleExpression globals t g reads e1
    handleExpression globals t g1 r1 e2

/-- `aeg.rs` `ADD_SKIP_CONNECTION` (compile-time constant). -/
def ADD_SKIP_CONNECTION : Bool := true

/-- The state threaded through `handle_statement`: the graph under
construction plus the `last_node`, `read_nodes` and `write_nodes`
vectors. -/
structure BuildSt where
  g : Aeg
  last : List Nat
  reads : List Nat
  writes : List Nat
deriving Repr

mutual

/-- `aeg.rs` `handle_statement`.  `none` models the `todo!` panic on
unimplemented fence kinds (and the unreachable `unwrap` failure in the
while-duplication step).  The second component of the result is the
returned `Option<Vec<NodeIndex>>` of first nodes. -/
def handleStatement (globals : List Name) (t : ThreadId) (s : BuildSt) :
    Statement → Option (BuildSt × Option (List Nat))
  | .Modify vwrite (.Num _) | .Assign vwrite (.Num _) =>
    if vwrite ∈ globals then
      let (g1, lhs) := addNode s.g (.Write t vwrite)
      let g2 := connectPrevious g1 s.last lhs
      some (⟨g2, [lhs], s.reads, s.writes ++ [lhs]⟩, some [lhs])
    else
      some (s, none)
  | .Modify vwrite (.Var vread) | .Assign vwrite (.Var vread) =>
    if vwrite ∈ globals ∧ vread ∈ globals then
      let (g1, lhs) := addNode s.g (.Write t vwrite)
      let (g2, rhs) := addNode g1 (.Read t vread)
      let g3 := connectPrevious g2 s.last lhs
      let g4 := updateEdge g3 rhs lhs .ProgramOrder
      some (⟨g4, [lhs], s.reads ++ [rhs], s.writes ++ [lhs]⟩, some [lhs])
    else if vwrite ∈ globals then
      let (g1, lhs) := addNode s.g (.Write t vwrite)
      let g2 := connectPrevious g1 s.last lhs
      some (⟨g2, [lhs], s.reads, s.writes ++ [lhs]⟩, some [lhs])
    else if vread ∈ globals then
      let (g1, rhs) := addNode s.g (.Read t vread)
      let g2 := connectPrevious g1 s.last rhs
      some (⟨g2, [rhs], s.reads ++ [rhs], s.writes⟩, some [rhs])
    else
      some (s, none)
  | .Fence .WR =>
    let (g1, f) := addNode s.g (.Fence t .Full)
    let g2 := connectPrevious g1 s.last f
    some (⟨g2, [f], s.reads, s.writes⟩, some [f])
  | .Fence _ => none
  | .If cond thn els =>
    let (g1, condReads) := handleCondition globals t s.g [] cond
    let first : Option (List Nat) := condReads.head?.map (fun r => [r])
    let g2 := match condReads.head? with
      | some r => connectPrevious g1 s.last r
      | none => g1
    let last1 := match condReads.getLast? with
      | some r => [r]
      | none => s.last
    let reads1 := s.reads ++ condReads
    let condLast := last1
    match handleStmts globals t ⟨g2, condLast, reads1, s.writes⟩ none thn with
    | none => none
    | some (sThn, firstThn) =>
      match handleStmts globals t ⟨sThn.g, condLast, sThn.reads, sThn.writes⟩
          none els with
      | none => none
      | some (sEls, firstEls) =>
        let lastMerged := sThn.last.foldl
          (fun acc n => if n ∈ acc then acc else acc ++ [n]) sEls.last
        let lastFinal := if ADD_SKIP_CONNECTION then lastMerged ++ condLast else lastMerged
        let firstOut : Option (List Nat) :=
          if first.isSome then first
          else match firstThn with
            | some ft =>
              some (ft ++ (match firstEls with | some fe => fe | none => []))
            | none => firstEls
        some (⟨sEls.g, lastFinal, sEls.reads, sEls.writes⟩, firstOut)
  | .While cond body =>
    let (g1, condReads) := handleCondition globals t s.g [] cond
    let firstCond := condReads.head?
    let g2 := match condReads.head? with
      | some r => connectPrevious g1 s.last r
      | none => g1
    let last1 := match condReads.getLast? with
      | some r => [r]
      | none => s.last
    let reads1 := s.reads ++ condReads
    let branch := last1
    match handleStmts globals t ⟨g2, last1, reads1, s.writes⟩ none body with
    | none => none
    | some (sBody, firstBody) =>
      match firstCond with
      | some fc =>
        match firstBody with
        | some fb =>
          -- condition duplication
          let (g3, condReads2) := handleCondition globals t sBody.g [] cond
          let g4 := match condReads2.head? with
            | some r => connectPrevious g3 sBody.last r
            | none => g3
          match condReads2.getLast? with
          | none => none -- models `reads.last().unwrap()`; unreachable
          | some lastRead =>
            let g5 := fb.foldl (fun g n => connectPrevious g [lastRead] n) g4
            some (⟨g5, branch ++ [lastRead], sBody.reads, sBody.writes⟩, some [fc])
        | none =>
          let g3 := connectPrevious sBody.g sBody.last fc
          some (⟨g3, sBody.last, sBody.reads, sBody.writes⟩, some [fc])
      | none =>
        match firstBody with
        | some fb =>
          let g3 := fb.foldl (fun g n => connectPrevious g sBody.last n) sBody.g
          some (⟨g3, sBody.last ++ branch, sBody.reads, sBody.writes⟩, some fb)
        | none =>
          some (⟨sBody.g, sBody.last, sBody.reads, sBody.writes⟩, none)

/-- Folding `handle_statement` over a statement list, tracking the first
`Some` of the returned first-node vectors (the `first_thn` / `first_els`
/ `first_body` accumulators of the Rust loops). -/
def handleStmts (globals : List Name) (t : ThreadId) (s : BuildSt)
    (facc : Option (List Nat)) : StmtList → Option (BuildSt × Option (List Nat))
  | .nil => some (s, facc)
  | .cons stmt rest =>
    match handleStatement globals t s stmt with
    | none => none
    | some (s1, f) =>
      handleStmts globals t s1 (if facc.isNone then f else facc) rest

end

/-- Wiring the `last_node` vector into the optional first condition
read (the shared prologue of the `If` and `While` arms of
`handle_statement`). -/
def branchBack (g1 : Aeg) (last : List Nat) (o : Option Nat) : Aeg :=
  match o with
  | some r => connectPrevious g1 last r
  | none => g1

/-- The `last_node` vector after a condition: the last condition read
if there is one, the incoming vector otherwise. -/
def branchLast (sLast : List Nat) (o : Option Nat) : List Nat :=
  match o with
  | some r => [r]
  | none => sLast

/-- The deduplicating merge of the two branch `last_node` vectors
(the fold at the end of the `If` arm of `handle_statement`). -/
def mergeLast (thnLast elsLast : List Nat) : List Nat :=
  thnLast.foldl (fun acc n => if n ∈ acc then acc else acc ++ [n]) elsLast

/-- The merge of the optional first-node vectors of the two branches of
an `If` (the tail of the `If` arm of `handle_statement`). -/
def mergeFirst (first firstThn firstEls : Option (List Nat)) :
    Option (List Nat) :=
  if first.isSome then first
  else match firstThn with
    | some ft => some (ft ++ (match firstEls with | some fe => fe | none => []))
    | none => firstEls

/-- The continuation of the `If` arm of `handle_statement` after the
condition has been processed (abstracted over the graph, branch point
and accumulators the condition produced; equal to the arm by `rfl`). -/
def ifCont (globals : List Name) (t : ThreadId) (s0 : BuildSt)
    (thn els : StmtList) (g2 : Aeg) (condLast reads1 : List Nat)
    (first : Option (List Nat)) : Option (BuildSt × Option (List Nat)) :=
  match handleStmts globals t ⟨g2, condLast, reads1, s0.writes⟩ none thn with
  | none => none
  | some (sThn, firstThn) =>
    match handleStmts globals t ⟨sThn.g, condLast, sThn.reads, sThn.writes⟩
        none els with
    | none => none
    | some (sEls, firstEls) =>
      let lastFinal := if ADD_SKIP_CONNECTION then
          mergeLast sThn.last sEls.last ++ condLast
        else mergeLast sThn.last sEls.last
      some (⟨sEls.g, lastFinal, sEls.reads, sEls.writes⟩,
        mergeFirst first firstThn firstEls)

/-- The continuation of the `While` arm of `handle_statement` after the
condition has been processed (equal to the arm by `rfl`). -/
def whileCont (globals : List Name) (t : ThreadId) (s0 : BuildSt)
    (cond : CondExpr) (body : StmtList) (g2 : Aeg) (last1 reads1 : List Nat)
    (firstCond : Option Nat) : Option (BuildSt × Option (List Nat)) :=
  match handleStmts globals t ⟨g2, last1, reads1, s0.writes⟩ none body with
  | none => none
  | some (sBody, firstBody) =>
    match firstCond with
    | some fc =>
      match firstBody with
      | some fb =>
        let g3 := (handleCondition globals t sBody.g [] cond).1
        let condReads2 := (handleCondition globals t sBody.g [] cond).2
        let g4 := branchBack g3 sBody.last condReads2.head?
        match condReads2.getLast? with
        | none => none
        | some lastRead =>
          let g5 := fb.foldl (fun g n => connectPrevious g [lastRead] n) g4
          some (⟨g5, last1 ++ [lastRead], sBody.reads, sBody.writes⟩, some [fc])
      | none =>
        let g3 := connectPrevious sBody.g sBody.last fc
        some (⟨g3, sBody.last, sBody.reads, sBody.writes⟩, some [fc])
    | none =>
      match firstBody with
      | some fb =>
        let g3 := fb.foldl (fun g n => connectPrevious g sBody.last n) sBody.g
        some (⟨g3, sBody.last ++ last1, sBody.reads, sBody.writes⟩, some fb)
      | none => some (⟨sBody.g, sBody.last, sBody.reads, sBody.writes⟩, none)

/-- The `(write_nodes, read_nodes)` pair accumulated per thread. -/
abbrev ThreadNodes := List Nat × List Nat

/-- Adds the undirected competing relation between `a` and `b` as two
directed edges (the two consecutive `update_edge` calls of the
cmp-relation loop of `create_aeg`). -/
def cmpPair (g : Aeg) (a b : Nat) : Aeg :=
  updateEdge (updateEdge g a b .Competing) b a .Competing

/-- The competing-edge phase of `create_aeg`: for every thread `i`,
every write `w` of `i` and every other thread `j ≠ i`, connect `w` with
every write and every read of `j` on the same address. -/
def cmpPhase (g0 : Aeg) (tns : List ThreadNodes) : Aeg :=
  tns.enum.foldl (fun g iwn =>
    iwn.2.1.foldl (fun g w =>
      tns.enum.foldl (fun g jon =>
        if jon.1 = iwn.1 then g
        else
          let g1 := jon.2.1.foldl (fun g ow =>
            if addrAt g ow = addrAt g w then cmpPair g w ow else g) g
          jon.2.2.foldl (fun g ord =>
            if addrAt g ord = addrAt g w then cmpPair g w ord else g) g1) g) g) g0

/-- One step of the thread loop of `create_aeg`: build one thread on
top of the accumulated graph and record its `(write_nodes, read_nodes)`
pair. -/
def threadStep (globals : List Name) (acc : Aeg × List ThreadNodes) (th : Thread) :
    Option (Aeg × List ThreadNodes) := do
  let (s, _) ← handleStmts globals th.name ⟨acc.1, [], [], []⟩ none th.instructions
  pure (s.g, acc.2 ++ [(s.writes, s.reads)])

/-- `aeg.rs` `create_aeg`: build each thread (the init block adds no
nodes), then wire the competing edges. -/
def createAeg (p : Program) : Option Aeg := do
  let r ← p.threads.foldlM (threadStep p.global_vars) (⟨⟨[], []⟩, []⟩ : Aeg × List ThreadNodes)
  pure (cmpPhase r.1 r.2)

/-- `critical_cycles::Architecture`. -/
inductive Architecture where
  | Tso
  | Arm
  | Power
deriving DecidableEq, Repr

/-- `aeg::AegConfig`. -/
structure AegConfig where
  architecture : Architecture
  skip_branches : Bool
deriving DecidableEq, Repr

/-- `AegConfig::default()`. -/
def defaultConfig : AegConfig := ⟨.Tso, true⟩

/-- `aeg::AbstractEventGraph`. -/
structure AbstractEventGraph where
  graph : Aeg
  config : AegConfig
deriving DecidableEq, Repr

/-- `AbstractEventGraph::new` (default config); `none` when the builder
panics. -/
def aegNew (p : Program) : Option AbstractEventGraph :=
  (createAeg p).map (fun g => ⟨g, defaultConfig⟩)

/-- `AbstractEventGraph::with_config`. -/
def withConfig (p : Program) (c : AegConfig) : Option AbstractEventGraph :=
  (createAeg p).map (fun g => ⟨g, c⟩)

/-! ## Program-order oracle (`close_po_neighbors`, `transitive_po_neighbors`,
`is_po_connected`, `po_between`) -/

/-- `close_po_neighbors`: targets of the `ProgramOrder` edges leaving `n`
(petgraph iterates a node's edges in reverse insertion order; only the
set of results is relevant to reachability queries, so edge-list order
is used here). -/
def poTargets (g : Aeg) (n : Nat) : List Nat :=
  g.edges.filterMap
    (fun e => if e.src = n ∧ e.weight = .ProgramOrder then some e.tgt else none)

/-- All edge targets of the graph: a finite universe containing every
node the po DFS can ever push (used as the termination measure). -/
def poUniv (g : Aeg) : List Nat :=
  (g.edges.map (fun e => e.tgt)).dedup

theorem poTargets_subset_poUniv (g : Aeg) (n : Nat) :
    ∀ x ∈ poTargets g n, x ∈ poUniv g := by
  intro x hx
  simp only [poTargets, List.mem_filterMap] at hx
  obtain ⟨e, he, hsome⟩ := hx
  split at hsome
  · cases hsome
    exact List.mem_dedup.mpr (List.mem_map.mpr ⟨e, he, rfl⟩)
  · cases hsome

/-- One saturation step of the po-reachability computation: keep the
current set and add every close po successor of its members. -/
def poStep (g : Aeg) (s : List Nat) : List Nat :=
  (s ++ s.flatMap (poTargets g)).dedup

/-- Iterated saturation. -/
def poIter (g : Aeg) : Nat → List Nat → List Nat
  | 0, s => s
  | k + 1, s => poIter g k (poStep g s)

/-- `AbstractEventGraph::transitive_po_neighbors`: every node reachable
from `node` through one or more `ProgramOrder` edges.  The Rust code
runs a DFS with a visited set (because while-loop back jumps can create
po cycles) and lazily yields each visited node once; its consumers use
only which nodes appear.  The DFS's visited set is exactly the set of
nodes reachable through at least one po edge, computed here as a
bounded saturation: every po-edge target lies in `poUniv g`, so
`(poUniv g).length` rounds reach the fixpoint. -/
def transitivePoNeighbors (g : Aeg) (node : Nat) : List Nat :=
  poIter g (poUniv g).length (poTargets g node)

/-- `AbstractEventGraph::is_po_connected`. -/
def isPoConnected (g : Aeg) (a b : Nat) : Bool :=
  (transitivePoNeighbors g a).contains b

/-- Direct competing successors of a node (the `close_non_po_neighbors`
part of `AbstractEventGraph::neighbors`). -/
def cmpNeighbors (g : Aeg) (n : Nat) : List Nat :=
  g.edges.filterMap
    (fun e => if e.src = n ∧ e.weight = .Competing then some e.tgt else none)

/-- `AbstractEventGraph::neighbors`: direct competing successors chained
with the transitive po successors. -/
def neighbors (g : Aeg) (n : Nat) : List Nat :=
  cmpNeighbors g n ++ transitivePoNeighbors g n

/-- `b` is the target of a `ProgramOrder` edge leaving `a`. -/
def hasPoEdge (g : Aeg) (a b : Nat) : Prop :=
  b ∈ poTargets g a

instance (g : Aeg) (a b : Nat) : Decidable (hasPoEdge g a b) := by
  unfold hasPoEdge; infer_instance

/-- Reachability through one or more `ProgramOrder` edges — the
specification relation for `transitive_po_neighbors`. -/
inductive PoReach (g : Aeg) : Nat → Nat → Prop where
  | single {a b : Nat} : hasPoEdge g a b → PoReach g a b
  | head {a b c : Nat} : hasPoEdge g a b → PoReach g b c → PoReach g a c

/-- All po paths with exactly `k` edges that start at `u`: the
specification device for shortest-po-path queries. -/
def poPathsLen (g : Aeg) (u : Nat) : Nat → List (List Nat)
  | 0 => [[u]]
  | k + 1 => (poTargets g u).flatMap (fun w => (poPathsLen g w k).map (fun p => u :: p))

/-- Linear search for the least `k` (starting at `k0`, for at most `r`
candidates) at which `f` produces a value.  `po_between` delegates to
petgraph `astar` with weight 0 on every `ProgramOrder` edge and 100 on
every `Competing` edge; behind the `is_po_connected` guard an all-po
path of total weight 0 exists, so `astar` returns a po-only path of
minimal weight.  Because every po-only path has weight 0, astar fixes
only the po-only-ness of the result; which of the weight-0 paths it
returns depends on its heap tie-breaking and strict-improvement
predecessor updates (petgraph is an external dependency whose code is
not in this repository).  The search below determinizes the call by
returning the canonical fewest-edge po-only path; the cycle
computations evaluated in this file consult it only at pairs joined by
a unique po path, where every determinization agrees. -/
def shortestSearch {α : Type} (f : Nat → Option α) : Nat → Nat → Option α
  | 0, _ => none
  | r + 1, k =>
    match f k with
    | some y => some y
    | none => shortestSearch f r (k + 1)

/-- `AbstractEventGraph::po_between`: `none` unless `b` is po-reachable
from `a`; otherwise some weight-0 (hence po-only) path from `a` to
`b`, determinized here as the canonical fewest-edge one (see
`shortestSearch` for what the astar call does and does not pin down). -/
def poBetween (g : Aeg) (a b : Nat) : Option (List Nat) :=
  if isPoConnected g a b then
    shortestSearch
      (fun k => ((poPathsLen g a k).filter (fun p => p.getLast? == some b)).head?)
      (g.nodes.length + 1) 0
  else none

/-! ## `simple_paths.rs`: all simple po-only paths -/

/-- Worker for `all_simple_po_paths`: backtracking DFS over close po
neighbours, extending `path` (which ends in `cur`).  `fuel` bounds the
depth; `nodes.length + 1` is enough because a simple path never repeats
a node. -/
def allSimplePoPathsAux (g : Aeg) (v : Nat) : Nat → List Nat → Nat → List (List Nat)
  | 0, _, _ => []
  | fuel + 1, path, cur =>
    (poTargets g cur).flatMap (fun child =>
      if child = v then [path ++ [v]]
      else if child ∈ path then []
      else allSimplePoPathsAux g v fuel (path ++ [child]) child)

/-- `simple_paths::all_simple_po_paths` at the only call site
(`min_intermediate_nodes = 0`, `max_intermediate_nodes = None`): every
simple path from `u` to `v` all of whose edges are `ProgramOrder`. -/
def allSimplePoPaths (g : Aeg) (u v : Nat) : List (List Nat) :=
  allSimplePoPathsAux g v (g.nodes.length + 1) [u] u

/-! ## `critical_cycles.rs`: the critical-cycle enumerator -/

/-- `critical_cycles::CriticalCycle`: the cycle (node indices in
traversal order) and the potential fence placements (edge indices). -/
structure CriticalCycle where
  cycle : List Nat
  potential_fences : List Nat
deriving DecidableEq, Repr

/-- Association-list model of the `hashbrown::HashMap`s used for the
per-cycle access tables (only lookup and per-key push are performed;
iteration order is irrelevant to every check made over them). -/
def lookupA {κ : Type} [DecidableEq κ] (m : List (κ × List Nat)) (k : κ) :
    Option (List Nat) :=
  (m.find? (fun kv => decide (kv.1 = k))).map (fun kv => kv.2)

/-- `map.entry(k).or_default().push(pos)`. -/
def pushA {κ : Type} [DecidableEq κ] (m : List (κ × List Nat)) (k : κ) (pos : Nat) :
    List (κ × List Nat) :=
  match m with
  | [] => [(k, [pos])]
  | kv :: rest =>
    if kv.1 = k then (kv.1, kv.2 ++ [pos]) :: rest else kv :: pushA rest k pos

/-- `critical_cycles::IncompleteMinimalCycle`. -/
structure IMC where
  cycle : List Nat
  thread_accesses : List (ThreadId × List Nat)
  memory_accesses : List (MemoryId × List Nat)
  architecture : Architecture
deriving DecidableEq, Repr

/-- `IncompleteMinimalCycle::with_architecture`. -/
def emptyIMC (arch : Architecture) : IMC := ⟨[], [], [], arch⟩

/-- The CS2/CS3 checks of `can_add_node` once the candidate's thread `t`
and address `m` are known.  `none` models a panic. -/
def canAddCore (A : AbstractEventGraph) (mc : IMC) (t : ThreadId) (m : MemoryId) :
    Option Bool := do
  let cs2 ←
    match lookupA mc.thread_accesses t with
    | none => pure true
    | some l =>
      match l.length with
      | 0 => pure true
      | 1 => do
        let lastIdx ← mc.cycle.getLast?
        let lastNd ← nodeAt A.graph lastIdx
        let c1 ←
          if lastNd.threadName = t then do
            let a ← lastNd.address
            pure (decide (a ≠ m))
          else pure false
        if c1 then pure true
        else do
          let fIdx ← mc.cycle.head?
          let fNd ← nodeAt A.graph fIdx
          if fNd.threadName = t then do
            let a ← fNd.address
            pure (decide (a ≠ m))
          else pure false
      | _ => pure false
  if !cs2 then pure false
  else
    match lookupA mc.memory_accesses m with
    | none => pure true
    | some l =>
      match l.length with
      | 0 => pure true
      | 1 | 2 => do
        let nds ← l.mapM (fun i => do
          let idx ← mc.cycle.get? i
          nodeAt A.graph idx)
        if nds.any (fun nd => decide (nd.threadName = t)) then pure false
        else do
          let lastIdx ← mc.cycle.getLast?
          let lastNd ← nodeAt A.graph lastIdx
          let a ← lastNd.address
          if a = m then pure true
          else do
            let fIdx ← mc.cycle.head?
            let fNd ← nodeAt A.graph fIdx
            let a2 ← fNd.address
            pure (decide (a2 = m))
      | _ => pure false

/-- `IncompleteMinimalCycle::can_add_node` (release semantics: the
`debug_assert!` is compiled out).  `none` models the `unimplemented!`
panic on `Fence` nodes. -/
def canAddNode (A : AbstractEventGraph) (mc : IMC) (n : Nat) : Option Bool :=
  if n ∈ mc.cycle then some false
  else
    match nodeAt A.graph n with
    | some (.Read t m) | some (.Write t m) => canAddCore A mc t m
    | _ => none

/-- `IncompleteMinimalCycle::add_node_unchecked` (its `debug_assert!` is
compiled out). -/
def addNodeUnchecked (A : AbstractEventGraph) (mc : IMC) (n : Nat) : Option IMC :=
  match nodeAt A.graph n with
  | some (.Read t m) | some (.Write t m) =>
    some { mc with
      thread_accesses := pushA mc.thread_accesses t mc.cycle.length
      memory_accesses := pushA mc.memory_accesses m mc.cycle.length
      cycle := mc.cycle ++ [n] }
  | _ => none

/-- `IncompleteMinimalCycle::add_node`. -/
def addNodeIMC (A : AbstractEventGraph) (mc : IMC) (n : Nat) : Option (Bool × IMC) := do
  let can ← canAddNode A mc n
  if can then do
    let mc1 ← addNodeUnchecked A mc n
    pure (true, mc1)
  else pure (false, mc)

/-- `IncompleteMinimalCycle::_edge_has_delay`, translated exactly as
written: the architecture check runs only when `node1` and `node2` are
joined by a `Competing` edge (the comment above it, its
`debug_assert!(aeg.is_po_connected(node1, node2))` and the crate's own
tests expect the processed pairs to be the ones NOT joined by a
competing edge). -/
def edgeHasDelay (A : AbstractEventGraph) (arch : Architecture) (n1 n2 : Nat) :
    Option Bool :=
  if A.graph.edges.any
      (fun e => decide (e.src = n1 ∧ e.tgt = n2 ∧ e.weight = .Competing)) then
    match arch, nodeAt A.graph n1, nodeAt A.graph n2 with
    | .Power, _, _ => some true
    | .Tso, some (.Write _ _), some (.Read _ _) => some true
    | .Tso, _, _ => some false
    | .Arm, _, _ => none
  else some false

/-- The `windows(2)` walk of `has_delay`. -/
def hasDelayAux (A : AbstractEventGraph) (arch : Architecture) :
    List (Nat × Nat) → Option Bool
  | [] => some false
  | ab :: rest => do
    let d ← edgeHasDelay A arch ab.1 ab.2
    if d then pure true else hasDelayAux A arch rest

/-- `IncompleteMinimalCycle::has_delay`: every adjacent pair, then the
wrap-around pair from the last node to the first. -/
def hasDelay (A : AbstractEventGraph) (mc : IMC) : Option Bool := do
  let d ← hasDelayAux A mc.architecture (mc.cycle.zip mc.cycle.tail)
  if d then pure true
  else
    match mc.cycle.head?, mc.cycle.getLast? with
    | some first, some last => do
      let d2 ← edgeHasDelay A mc.architecture last first
      pure d2
    | _, _ => pure false

/-- `critical_cycles::potential_fences`: per delay pair of the cycle,
collect fence edges along the shortest po path (`skip_branches = true`)
or along every simple po path, combined by cartesian product
(`skip_branches = false`). -/
def potentialFences (A : AbstractEventGraph) (cycle : List Nat) :
    Option (List (List Nat)) := do
  let n := cycle.length
  let (skipAcc, pathsAcc) ← (List.range n).foldlM
    (fun (acc : List Nat × List (List (List Nat))) i => do
      let j := if i < n - 1 then i + 1 else 0
      let u ← cycle.get? i
      let v ← cycle.get? j
      let proceed ← (
        match A.config.architecture, nodeAt A.graph u, nodeAt A.graph v with
        | .Tso, some (.Write _ _), some (.Read _ _) => some true
        | .Tso, _, _ => some false
        | .Arm, _, _ => none
        | .Power, _, _ => some true)
      if !proceed then pure acc
      else
        if A.config.skip_branches then
          match poBetween A.graph u v with
          | some path => do
            let es ← (path.zip path.tail).mapM (fun ab => findEdge A.graph ab.1 ab.2)
            pure (acc.1 ++ es, acc.2)
          | none => pure acc
        else do
          let paths := allSimplePoPaths A.graph u v
          let pedges ← paths.mapM
            (fun p => (p.zip p.tail).mapM (fun ab => findEdge A.graph ab.1 ab.2))
          if pedges.isEmpty then pure acc else pure (acc.1, acc.2 ++ [pedges]))
    ([], [])
  if A.config.skip_branches then pure [skipAcc]
  else pure (pathsAcc.foldl
    (fun acc e => acc.flatMap (fun t1 => e.map (fun t2 => t1 ++ t2))) [[]])

/-- `IncompleteMinimalCycle::complete`: delay check (CS1), the re-check
of thread/memory adjacency around the closed ring, then one
`CriticalCycle` per potential-fence combination. -/
def completeIMC (mc : IMC) (A : AbstractEventGraph) : Option (List CriticalCycle) := do
  let hd ← hasDelay A mc
  if !hd then pure []
  else
    let thOk := mc.thread_accesses.all (fun kv =>
      match kv.2 with
      | [idx1, idx2] =>
        decide (idx2 - idx1 = 1 ∨ idx2 - idx1 = mc.cycle.length - 1)
      | _ => true)
    if !thOk then pure []
    else
      let memOk := mc.memory_accesses.all (fun kv =>
        match kv.2 with
        | [idx1, idx2] =>
          decide (idx2 - idx1 = 1 ∨ idx2 - idx1 = mc.cycle.length - 1)
        | [idx1, idx2, idx3] =>
          decide ((idx2 - idx1 = 1 ∨ idx2 - idx1 = mc.cycle.length - 1) ∧
            (idx3 - idx2 = 1 ∨ idx3 - idx2 = mc.cycle.length - 1))
        | _ => true)
      if !memOk then pure []
      else do
        let pfs ← potentialFences A mc.cycle
        pure (pfs.map (fun pf => ⟨mc.cycle, pf⟩))

/-- Result of running the enumerator: a value, a modelled panic, or
exhaustion of the (always sufficient) fuel. -/
inductive CCOut (α : Type) where
  | ok (val : α)
  | crash
  | outOfFuel
deriving DecidableEq, Repr

/-- The `for succ in aeg.neighbors(node)` loop body of
`critical_cycles`. -/
def expandSuccs (A : AbstractEventGraph) (mc : IMC) (explored : List Nat) :
    List Nat → List IMC → List CriticalCycle → CCOut (List IMC × List CriticalCycle)
  | [], stack, inner => .ok (stack, inner)
  | s :: rest, stack, inner =>
    if s ∈ explored then expandSuccs A mc explored rest stack inner
    else
      match canAddNode A mc s with
      | none => .crash
      | some true =>
        match addNodeUnchecked A mc s with
        | none => .crash
        | some mc1 => expandSuccs A mc explored rest (mc1 :: stack) inner
      | some false =>
        if mc.cycle.head? = some s ∧ mc.cycle.length > 2 then
          match completeIMC mc A with
          | none => .crash
          | some ccs => expandSuccs A mc explored rest stack (inner ++ ccs)
        else expandSuccs A mc explored rest stack inner

/-- The `while let Some(cycle) = stack.pop()` loop of `critical_cycles`
(one DFS from a fixed start node). -/
def dfsRun (A : AbstractEventGraph) (explored : List Nat) :
    Nat → List IMC → List (List Nat) → List CriticalCycle → CCOut (List CriticalCycle)
  | 0, _, _, _ => .outOfFuel
  | _ + 1, [], _, inner => .ok inner
  | fuel + 1, mc :: stack, discovered, inner =>
    match mc.cycle.getLast? with
    | none => .crash
    | some node =>
      if mc.cycle ∈ discovered then dfsRun A explored fuel stack discovered inner
      else
        match expandSuccs A mc explored (neighbors A.graph node) stack inner with
        | .crash => .crash
        | .outOfFuel => .outOfFuel
        | .ok (stack1, inner1) =>
          dfsRun A explored fuel stack1 (mc.cycle :: discovered) inner1

/-- Fuel bound for one DFS: comfortably more than the number of distinct
incomplete cycles over the graph's nodes. -/
def ccFuel (g : Aeg) : Nat := (g.nodes.length + 2) ^ (g.nodes.length + 2)

/-- The `for start_node in aeg.graph.node_indices()` loop of
`critical_cycles`. -/
def ccOuter (A : AbstractEventGraph) :
    List Nat → List Nat → List CriticalCycle → CCOut (List CriticalCycle)
  | [], _, acc => .ok acc
  | s :: rest, explored, acc =>
    match addNodeIMC A (emptyIMC A.config.architecture) s with
    | none => .crash
    | some (_, mc1) =>
      match dfsRun A explored (ccFuel A.graph) [mc1] [] [] with
      | .crash => .crash
      | .outOfFuel => .outOfFuel
      | .ok inner => ccOuter A rest (explored ++ [s]) (acc ++ inner)

/-- `critical_cycles::critical_cycles`. -/
def criticalCycles (A : AbstractEventGraph) : CCOut (List CriticalCycle) :=
  ccOuter A (List.range A.graph.nodes.length) [] []

/-- `AbstractEventGraph::tso_critical_cycles` (delegates to
`critical_cycles` with the graph's configured architecture). -/
def tsoCriticalCycles (A : AbstractEventGraph) : CCOut (List CriticalCycle) :=
  criticalCycles A

/-! ## Concrete programs from the specification's scenarios -/

/-- The classic store-buffer program (spec scenario (a)):
`thread t1 { x = 1; let a: u32 = y; }`,
`thread t2 { y = 1; let b: u32 = x; }`, globals `x`, `y`. -/
def storeBuffer : Program :=
  { init := [.Assign "x" (.Num 0), .Assign "y" (.Num 0)]
    threads :=
      [ ⟨"t1", stmtList [.Modify "x" (.Num 1), .Assign "a" (.Var "y")]⟩
      , ⟨"t2", stmtList [.Modify "y" (.Num 1), .Assign "b" (.Var "x")]⟩ ]
    global_vars := ["x", "y"] }

/-- The load-buffering shape:
`thread t1 { let a: u32 = y; x = 1; }`,
`thread t2 { let b: u32 = x; y = 1; }`, globals `x`, `y`. -/
def loadBuffering : Program :=
  { init := [.Assign "x" (.Num 0), .Assign "y" (.Num 0)]
    threads :=
      [ ⟨"t1", stmtList [.Assign "a" (.Var "y"), .Modify "x" (.Num 1)]⟩
      , ⟨"t2", stmtList [.Assign "b" (.Var "x"), .Modify "y" (.Num 1)]⟩ ]
    global_vars := ["x", "y"] }

/-- The store-buffer program with a `Fence(WR)` in `t1` between the
write and the read (the crate's `fenced_program` test). -/
def fencedStoreBuffer : Program :=
  { init := [.Assign "x" (.Num 0), .Assign "y" (.Num 0)]
    threads :=
      [ ⟨"t1", stmtList [.Modify "x" (.Num 1), .Fence .WR, .Assign "a" (.Var "y")]⟩
      , ⟨"t2", stmtList [.Modify "y" (.Num 1), .Assign "b" (.Var "x")]⟩ ]
    global_vars := ["x", "y"] }

/-- Spec scenario (d):
`thread t1 { x = 32; while (x == 0) { y = 1; y = 2; } z = 1; }`,
globals `x`, `y`, `z`. -/
def whileProgram : Program :=
  { init := [.Assign "x" (.Num 0), .Assign "y" (.Num 0), .Assign "z" (.Num 0)]
    threads :=
      [ ⟨"t1",
          stmtList
            [ .Modify "x" (.Num 32)
            , .While (.Eq (.Var "x") (.Num 0))
                (stmtList [.Modify "y" (.Num 1), .Modify "y" (.Num 2)])
            , .Modify "z" (.Num 1) ]⟩ ]
    global_vars := ["x", "y", "z"] }

/-- The crate's `whiles_no_condition` test: a while loop whose condition
reads no global, so the back edge makes the first body write and the
body read form a two-node po cycle. -/
def whileLocalCondProgram : Program :=
  { init := [.Assign "x" (.Num 0), .Assign "y" (.Num 0), .Assign "z" (.Num 0)]
    threads :=
      [ ⟨"t1",
          stmtList
            [ .Assign "a" (.Num 0)
            , .Modify "x" (.Num 32)
            , .While (.Eq (.Var "a") (.Num 0))
                (stmtList [.Modify "y" (.Num 1), .Assign "a" (.Var "y")])
            , .Modify "z" (.Num 1) ]⟩ ]
    global_vars := ["x", "y", "z"] }

/-- Two threads that share the name `t1` and both write the global `x`:
the builder distinguishes threads by index, so it still wires competing
edges between them although the two nodes carry the same thread id. -/
def dupNameProgram : Program :=
  { init := [.Assign "x" (.Num 0)]
    threads :=
      [ ⟨"t1", stmtList [.Modify "x" (.Num 1)]⟩
      , ⟨"t1", stmtList [.Modify "x" (.Num 2)]⟩ ]
    global_vars := ["x"] }

/-! ## Expected graphs and claim-statement helpers -/

/-- The AEG the builder produces for `storeBuffer`. -/
def storeBufferAeg : Aeg :=
  { nodes := [.Write "t1" "x", .Read "t1" "y", .Write "t2" "y", .Read "t2" "x"]
    edges :=
      [ ⟨0, 1, .ProgramOrder⟩, ⟨2, 3, .ProgramOrder⟩
      , ⟨0, 3, .Competing⟩, ⟨3, 0, .Competing⟩
      , ⟨2, 1, .Competing⟩, ⟨1, 2, .Competing⟩ ] }

/-- The AEG the builder produces for `loadBuffering`. -/
def loadBufferingAeg : Aeg :=
  { nodes := [.Read "t1" "y", .Write "t1" "x", .Read "t2" "x", .Write "t2" "y"]
    edges :=
      [ ⟨0, 1, .ProgramOrder⟩, ⟨2, 3, .ProgramOrder⟩
      , ⟨1, 2, .Competing⟩, ⟨2, 1, .Competing⟩
      , ⟨3, 0, .Competing⟩, ⟨0, 3, .Competing⟩ ] }

/-- The AEG the builder produces for `fencedStoreBuffer`: the fence is
an ordinary node of the graph. -/
def fencedStoreBufferAeg : Aeg :=
  { nodes :=
      [ .Write "t1" "x", .Fence "t1" .Full, .Read "t1" "y"
      , .Write "t2" "y", .Read "t2" "x" ]
    edges :=
      [ ⟨0, 1, .ProgramOrder⟩, ⟨1, 2, .ProgramOrder⟩, ⟨3, 4, .ProgramOrder⟩
      , ⟨0, 4, .Competing⟩, ⟨4, 0, .Competing⟩
      , ⟨3, 2, .Competing⟩, ⟨2, 3, .Competing⟩ ] }

/-- The AEG the builder produces for `whileProgram`: `Wx`, the first
condition read `Rx`, the two body writes `Wy`, the duplicated condition
read (index 4) and `Wz`, with seven po edges. -/
def whileProgramAeg : Aeg :=
  { nodes :=
      [ .Write "t1" "x", .Read "t1" "x", .Write "t1" "y"
      , .Write "t1" "y", .Read "t1" "x", .Write "t1" "z" ]
    edges :=
      [ ⟨0, 1, .ProgramOrder⟩, ⟨1, 2, .ProgramOrder⟩, ⟨2, 3, .ProgramOrder⟩
      , ⟨3, 4, .ProgramOrder⟩, ⟨4, 2, .ProgramOrder⟩, ⟨1, 5, .ProgramOrder⟩
      , ⟨4, 5, .ProgramOrder⟩ ] }

/-- The AEG the builder produces for `whileLocalCondProgram`; nodes 1
(`Wy`) and 2 (`Ry`) sit on a two-node `ProgramOrder` cycle created by
the loop's back jump. -/
def whileLocalCondAeg : Aeg :=
  { nodes := [.Write "t1" "x", .Write "t1" "y", .Read "t1" "y", .Write "t1" "z"]
    edges :=
      [ ⟨0, 1, .ProgramOrder⟩, ⟨1, 2, .ProgramOrder⟩, ⟨2, 1, .ProgramOrder⟩
      , ⟨2, 3, .ProgramOrder⟩, ⟨0, 3, .ProgramOrder⟩ ] }

/-- The AEG the builder produces for `dupNameProgram`: a competing pair
between two nodes carrying the same thread id `"t1"`. -/
def dupNameAeg : Aeg :=
  { nodes := [.Write "t1" "x", .Write "t1" "x"]
    edges := [⟨0, 1, .Competing⟩, ⟨1, 0, .Competing⟩] }

/-- The adjacent pairs of a reported cycle, including the wrap-around
pair from the last node to the first (the pairs walked by
`has_delay`). -/
def adjacentPairs (l : List Nat) : List (Nat × Nat) :=
  l.zip l.tail ++
    (match l.getLast?, l.head? with
     | some a, some b => [(a, b)]
     | _, _ => [])

/-- The delay property claimed for TSO: the pair is connected by
program order and goes from a `Write` to a `Read`. -/
def tsoDelayPair (g : Aeg) (a b : Nat) : Bool :=
  isPoConnected g a b &&
    (match nodeAt g a, nodeAt g b with
     | some (.Write _ _), some (.Read _ _) => true
     | _, _ => false)

/-! ## Unsupported-fence predicates (claim C8) -/

mutual

/-- The statement contains a `Fence` of an unimplemented kind
(WW/RW/RR), anywhere in its nested branches. -/
def stmtHasBadFence : Statement → Bool
  | .Assign _ _ => false
  | .Modify _ _ => false
  | .Fence .WR => false
  | .Fence _ => true
  | .If _ thn els => stmtsHaveBadFence thn || stmtsHaveBadFence els
  | .While _ body => stmtsHaveBadFence body

/-- Some statement of the list contains an unimplemented fence. -/
def stmtsHaveBadFence : StmtList → Bool
  | .nil => false
  | .cons s rest => stmtHasBadFence s || stmtsHaveBadFence rest

end

/-- Some thread of the program contains a `Fence(WW)`, `Fence(RW)` or
`Fence(RR)` statement. -/
def progHasBadFence (p : Program) : Bool :=
  p.threads.any (fun th => stmtsHaveBadFence th.instructions)

/-- Number of global reads an expression emits. -/
def numReadsExpr (globals : List Name) : Expr → Nat
  | .Num _ => 0
  | .Var v => if v ∈ globals then 1 else 0

/-- Number of global reads a condition emits. -/
def numCondReads (globals : List Name) : CondExpr → Nat
  | .Neg e => numCondReads globals e
  | .And e1 e2 => numCondReads globals e1 + numCondReads globals e2
  | .Eq e1 e2 => numReadsExpr globals e1 + numReadsExpr globals e2
  | .Leq e1 e2 => numReadsExpr globals e1 + numReadsExpr globals e2

/-- A po-only path from `u` to `v`: nonempty, starts at `u`, ends at
`v`, every consecutive pair joined by a `ProgramOrder` edge (so no
`Competing` edge is ever traversed). -/
def PoPath (g : Aeg) (u v : Nat) (p : List Nat) : Prop :=
  p.head? = some u ∧ p.getLast? = some v ∧ List.Chain' (hasPoEdge g) p

/-! ## Theorems -/

/-! ## Bridge: the oracle computes po reachability -/

/-- All edge endpoints are valid node indices (petgraph guarantees this
by construction). -/
def EdgeBounds (g : Aeg) : Prop :=
  ∀ e ∈ g.edges, e.src < g.nodes.length ∧ e.tgt < g.nodes.length

/-- No edge is a self loop. -/
def NoSelfEdge (g : Aeg) : Prop := ∀ e ∈ g.edges, e.src ≠ e.tgt

/-- No two parallel edges: the ordered source/target pairs of the edge
list are pairwise distinct. -/
def NoDupEdges (g : Aeg) : Prop :=
  (g.edges.map (fun e => (e.src, e.tgt))).Nodup

/-- The graph is a simple digraph with in-bounds endpoints. -/
def GraphWF (g : Aeg) : Prop := EdgeBounds g ∧ NoSelfEdge g ∧ NoDupEdges g

/-- All edges are `ProgramOrder` (holds throughout the per-thread build
phase; competing edges appear only in the cmp phase). -/
def AllPo (g : Aeg) : Prop := ∀ e ∈ g.edges, e.weight = AegEdge.ProgramOrder

/-- `g2` extends `g` by appending nodes (edge content unconstrained). -/
def NodesExt (g g2 : Aeg) : Prop := ∃ ext, g2.nodes = g.nodes ++ ext

/-- The reads accumulator is sound: indices in the current thread's
segment pointing at `Read` nodes of thread `t`. -/
def ReadsOk (lo : Nat) (t : ThreadId) (g : Aeg) (l : List Nat) : Prop :=
  ∀ n ∈ l, lo ≤ n ∧ n < g.nodes.length ∧ ∃ m, nodeAt g n = some (.Read t m)

/-- The writes accumulator is sound. -/
def WritesOk (lo : Nat) (t : ThreadId) (g : Aeg) (l : List Nat) : Prop :=
  ∀ n ∈ l, lo ≤ n ∧ n < g.nodes.length ∧ ∃ m, nodeAt g n = some (.Write t m)

/-- The invariant of the per-thread build state: a well-formed all-po
graph, whose accumulators point at appropriately-typed nodes of the
current thread's segment `[lo, len)`. -/
def BOk (lo : Nat) (t : ThreadId) (s : BuildSt) : Prop :=
  GraphWF s.g ∧ AllPo s.g ∧ lo ≤ s.g.nodes.length ∧
  (∀ n ∈ s.last, n < s.g.nodes.length) ∧
  ReadsOk lo t s.g s.reads ∧ WritesOk lo t s.g s.writes

/-- The optional first-node list is bounded by the graph size. -/
def FirstOk (g : Aeg) (f : Option (List Nat)) : Prop :=
  ∀ l, f = some l → ∀ n ∈ l, n < g.nodes.length

/-- The thread segments recorded by the thread loop of `create_aeg`:
successive `(write_nodes, read_nodes)` entries occupy successive,
disjoint index intervals between `lo` and `hi`. -/
def SegsFrom (lo hi : Nat) : List ThreadNodes → Prop
  | [] => True
  | wn :: rest => ∃ mid, lo ≤ mid ∧ mid ≤ hi ∧
      (∀ n ∈ wn.1, lo ≤ n ∧ n < mid) ∧ (∀ n ∈ wn.2, lo ≤ n ∧ n < mid) ∧
      SegsFrom mid hi rest

/-- The per-thread accumulator entries point at `Write`/`Read` nodes of
the matching thread name. -/
def TnsOk (g : Aeg) (names : List Name) (tns : List ThreadNodes) : Prop :=
  List.Forall₂ (fun nm wn =>
    (∀ n ∈ wn.1, ∃ m, nodeAt g n = some (.Write nm m)) ∧
    (∀ n ∈ wn.2, ∃ m, nodeAt g n = some (.Read nm m))) names tns

/-- The competing-edge well-formedness property: every Competing edge
comes with its reverse twin and joins same-address events of different
threads, at least one of them a write. -/
def GoodCmp (g : Aeg) (a b : Nat) : Prop :=
  ∃ u v, nodeAt g a = some u ∧ nodeAt g b = some v ∧
    u.threadName ≠ v.threadName ∧ u.address = v.address ∧
    (u.isWrite = true ∨ v.isWrite = true)

def CmpOk (g : Aeg) : Prop :=
  ∀ e ∈ g.edges, e.weight = .Competing →
    (∃ e2 ∈ g.edges, e2.src = e.tgt ∧ e2.tgt = e.src ∧
      e2.weight = .Competing) ∧
    GoodCmp g e.src e.tgt

theorem PoReach.tail {g : Aeg} {a b c : Nat}
    (h : PoReach g a b) (e : hasPoEdge g b c) : PoReach g a c := by
  induction h with
  | single e1 => exact .head e1 (.single e)
  | head e1 _ ih => exact .head e1 (ih e)

theorem PoReach.trans {g : Aeg} {a b c : Nat}
    (h1 : PoReach g a b) (h2 : PoReach g b c) : PoReach g a c := by
  induction h2 with
  | single e => exact h1.tail e
  | head e _ ih => exact ih (h1.tail e)

theorem subset_poStep (g : Aeg) (s : List Nat) : s ⊆ poStep g s := by
  intro x hx
  simp only [poStep, List.mem_dedup, List.mem_append]
  exact Or.inl hx

theorem mem_poStep_of_edge {g : Aeg} {s : List Nat} {a b : Nat}
    (ha : a ∈ s) (e : hasPoEdge g a b) : b ∈ poStep g s := by
  simp only [poStep, List.mem_dedup, List.mem_append, List.mem_flatMap]
  exact Or.inr ⟨a, ha, e⟩

theorem poStep_mono {g : Aeg} {s t : List Nat} (h : s ⊆ t) :
    poStep g s ⊆ poStep g t := by
  intro x hx
  simp only [poStep, List.mem_dedup, List.mem_append, List.mem_flatMap] at hx ⊢
  rcases hx with hx | ⟨a, ha, hx⟩
  · exact Or.inl (h hx)
  · exact Or.inr ⟨a, h ha, hx⟩

theorem poIter_mono_set {g : Aeg} : ∀ (k : Nat) {s t : List Nat}, s ⊆ t →
    poIter g k s ⊆ poIter g k t
  | 0, _, _, h => h
  | k + 1, _, _, h => poIter_mono_set k (poStep_mono h)

theorem subset_poIter (g : Aeg) : ∀ (k : Nat) (s : List Nat), s ⊆ poIter g k s
  | 0, _ => fun _ h => h
  | k + 1, s => fun _ hx => subset_poIter g k (poStep g s) (subset_poStep g s hx)

theorem poIter_succ_subset (g : Aeg) (k : Nat) (s : List Nat) :
    poIter g k s ⊆ poIter g (k + 1) s := by
  show poIter g k s ⊆ poIter g k (poStep g s)
  exact poIter_mono_set k (subset_poStep g s)

theorem poIter_mono_iter {g : Aeg} : ∀ {k1 k2 : Nat}, k1 ≤ k2 → ∀ (s : List Nat),
    poIter g k1 s ⊆ poIter g k2 s := by
  intro k1 k2 h
  induction h with
  | refl => intro s; exact fun x hx => hx
  | step h ih =>
    intro s
    exact fun x hx => poIter_succ_subset g _ s (ih s hx)

theorem poIter_sound {g : Aeg} {n : Nat} : ∀ (k : Nat) (s : List Nat),
    (∀ x ∈ s, PoReach g n x) → ∀ x ∈ poIter g k s, PoReach g n x := by
  intro k
  induction k with
  | zero => intro s hs x hx; exact hs x hx
  | succ k ih =>
    intro s hs x hx
    refine ih (poStep g s) ?_ x hx
    intro y hy
    simp only [poStep, List.mem_dedup, List.mem_append, List.mem_flatMap] at hy
    rcases hy with hy | ⟨a, ha, hy⟩
    · exact hs y hy
    · exact (hs a ha).tail hy

theorem transitivePoNeighbors_sound {g : Aeg} {n x : Nat}
    (h : x ∈ transitivePoNeighbors g n) : PoReach g n x :=
  poIter_sound _ _ (fun _ hy => .single hy) x h

/-- Every non-head node of a po chain is a po-edge target. -/
theorem chain_mem_poUniv {g : Aeg} : ∀ {p : List Nat} {a : Nat},
    List.Chain' (hasPoEdge g) (a :: p) → ∀ x ∈ p, x ∈ poUniv g := by
  intro p
  induction p with
  | nil => intro a _ x hx; cases hx
  | cons c rest ih =>
    intro a hch x hx
    rw [List.chain'_cons] at hch
    rcases hx with _ | hx
    · exact poTargets_subset_poUniv g a c hch.1
    · exact ih hch.2 x (by assumption)

theorem poIter_chain_complete {g : Aeg} : ∀ (p : List Nat) (a b : Nat)
    (s : List Nat), a ∈ s → List.Chain' (hasPoEdge g) (a :: p) →
    (a :: p).getLast? = some b → b ∈ poIter g p.length s := by
  intro p
  induction p with
  | nil =>
    intro a b s ha _ hl
    simp only [List.getLast?_singleton, Option.some_inj] at hl
    subst hl
    exact ha
  | cons c rest ih =>
    intro a b s ha hch hl
    rw [List.chain'_cons] at hch
    have hc : c ∈ poStep g s := mem_poStep_of_edge ha hch.1
    have hl2 : (c :: rest).getLast? = some b := by
      simpa using hl
    exact ih c b (poStep g s) hc hch.2 hl2

theorem poReach_path {g : Aeg} {a b : Nat} (h : PoReach g a b) :
    ∃ p, List.Chain' (hasPoEdge g) (a :: p) ∧ p ≠ [] ∧
      (a :: p).getLast? = some b := by
  induction h with
  | @single a1 b1 e =>
    exact ⟨[b1], by simp [List.chain'_cons, e, List.chain'_singleton], by simp, by simp⟩
  | @head a1 b1 c1 e _ ih =>
    obtain ⟨p, hch, hne, hl⟩ := ih
    refine ⟨b1 :: p, ?_, by simp, ?_⟩
    · rw [List.chain'_cons]
      exact ⟨e, hch⟩
    · simpa using hl

theorem path_poReach {g : Aeg} : ∀ (p : List Nat) (a b : Nat),
    List.Chain' (hasPoEdge g) (a :: p) → p ≠ [] →
    (a :: p).getLast? = some b → PoReach g a b := by
  intro p
  induction p with
  | nil => intro a b _ hne _; cases hne rfl
  | cons c rest ih =>
    intro a b hch _ hl
    rw [List.chain'_cons] at hch
    cases rest with
    | nil =>
      simp only [List.getLast?_cons_cons, List.getLast?_singleton,
        Option.some_inj] at hl
      subst hl
      exact .single hch.1
    | cons d rest2 =>
      have hl2 : (c :: d :: rest2).getLast? = some b := by
        simpa using hl
      exact .head hch.1 (ih c b hch.2 (by simp) hl2)

/-- A list that is not `Nodup` splits around a repeated element. -/
theorem not_nodup_split {l : List Nat} (h : ¬ l.Nodup) :
    ∃ x p q r, l = p ++ x :: q ++ x :: r := by
  induction l with
  | nil => cases h List.nodup_nil
  | cons a as ih =>
    rw [List.nodup_cons] at h
    push_neg at h
    by_cases ha : a ∈ as
    · obtain ⟨q, r, rfl⟩ := List.append_of_mem ha
      exact ⟨a, [], q, r, rfl⟩
    · obtain ⟨x, p, q, r, rfl⟩ := ih (h ha)
      exact ⟨x, a :: p, q, r, rfl⟩

theorem getLast?_append_ne {α : Type} (l1 l2 : List α) (h : l2 ≠ []) :
    (l1 ++ l2).getLast? = l2.getLast? := by
  cases l2 with
  | nil => cases h rfl
  | cons a t => exact List.getLast?_append_cons l1 a t

theorem head?_append_cons {α : Type} (p : List α) (x : α) (u v : List α) :
    (p ++ x :: u).head? = (p ++ x :: v).head? := by
  cases p <;> rfl

/-- Any po chain can be shortened to a duplicate-free po chain with the
same endpoints, using only nodes of the original chain. -/
theorem chain_shorten {g : Aeg} : ∀ (n : Nat) (l : List Nat), l.length ≤ n →
    List.Chain' (hasPoEdge g) l →
    ∃ l2, List.Chain' (hasPoEdge g) l2 ∧ l2.Nodup ∧ l2.head? = l.head? ∧
      l2.getLast? = l.getLast? ∧ l2 ⊆ l := by
  intro n
  induction n with
  | zero =>
    intro l hl _
    have : l = [] := List.length_eq_zero.mp (Nat.le_zero.mp hl)
    subst this
    exact ⟨[], by simp, by simp, rfl, rfl, by simp⟩
  | succ n ih =>
    intro l hl hch
    by_cases hnd : l.Nodup
    · exact ⟨l, hch, hnd, rfl, rfl, fun _ h => h⟩
    · obtain ⟨x, p, q, r, rfl⟩ := not_nodup_split hnd
      have hassoc : p ++ x :: q ++ x :: r = (p ++ x :: q) ++ (x :: r) := by
        simp
      rw [hassoc] at hch hl
      rw [List.chain'_append] at hch
      obtain ⟨h1, h2, hj⟩ := hch
      rw [List.chain'_append] at h1
      obtain ⟨hp, hxq, hj2⟩ := h1
      have hch2 : List.Chain' (hasPoEdge g) (p ++ x :: r) := by
        rw [List.chain'_append]
        refine ⟨hp, h2, ?_⟩
        intro a ha y hy
        simp only [List.head?_cons, Option.mem_def, Option.some_inj] at hy
        subst hy
        exact hj2 a ha x (by simp)
      have hlen : (p ++ x :: r).length ≤ n := by
        simp only [List.length_append, List.length_cons] at hl ⊢
        omega
      obtain ⟨l2, hc2, hnd2, hh2, hg2, hs2⟩ := ih (p ++ x :: r) hlen hch2
      refine ⟨l2, hc2, hnd2, ?_, ?_, ?_⟩
      · rw [hh2, show p ++ x :: q ++ x :: r = p ++ x :: (q ++ x :: r) by simp]
        exact head?_append_cons p x r (q ++ x :: r)
      · rw [hg2, getLast?_append_ne p (x :: r) (by simp),
          getLast?_append_ne (p ++ x :: q) (x :: r) (by simp)]
      · intro a ha
        have := hs2 ha
        simp only [List.mem_append, List.mem_cons] at this ⊢
        tauto

theorem transitivePoNeighbors_complete {g : Aeg} {n b : Nat}
    (h : PoReach g n b) : b ∈ transitivePoNeighbors g n := by
  obtain ⟨p, hch, hne, hl⟩ := poReach_path h
  cases p with
  | nil => cases hne rfl
  | cons t p2 =>
    rw [List.chain'_cons] at hch
    have hlast : (t :: p2).getLast? = some b := by simpa using hl
    obtain ⟨l2, hc2, hnd2, hh2, hg2, hs2⟩ :=
      chain_shorten (t :: p2).length (t :: p2) (le_refl _) hch.2
    cases l2 with
    | nil => simp at hh2
    | cons c p3 =>
      simp only [List.head?_cons, Option.some_inj] at hh2
      subst hh2
      have hmem : b ∈ poIter g p3.length (poTargets g n) :=
        poIter_chain_complete p3 c b (poTargets g n) hch.1 hc2 (hg2.trans hlast)
      have htu : c ∈ poUniv g := poTargets_subset_poUniv g n c hch.1
      have hsub : (c :: p3) ⊆ poUniv g := by
        intro x hx
        rw [List.mem_cons] at hx
        rcases hx with rfl | hx
        · exact htu
        · have hx2 := hs2 (List.mem_cons_of_mem c hx)
          rw [List.mem_cons] at hx2
          rcases hx2 with rfl | hx2
          · exact htu
          · exact chain_mem_poUniv hch.2 x hx2
      have hlen : p3.length < (poUniv g).length := by
        have := (hnd2.subperm hsub).length_le
        simp only [List.length_cons] at this
        omega
      exact poIter_mono_iter (Nat.le_of_lt hlen) (poTargets g n) hmem

/-- The oracle bridge: `is_po_connected a b` holds exactly when `b` is
reachable from `a` through one or more `ProgramOrder` edges. -/
theorem isPoConnected_iff_poReach (g : Aeg) (a b : Nat) :
    isPoConnected g a b = true ↔ PoReach g a b := by
  unfold isPoConnected
  rw [List.contains_iff_exists_mem_beq]
  constructor
  · rintro ⟨x, hx, hbeq⟩
    have : b = x := by simpa using hbeq
    subst this
    exact transitivePoNeighbors_sound hx
  · intro h
    exact ⟨b, transitivePoNeighbors_complete h, by simp⟩

theorem mem_poPathsLen {g : Aeg} : ∀ (k u : Nat) (p : List Nat),
    p ∈ poPathsLen g u k ↔
      (p.head? = some u ∧ p.length = k + 1 ∧ List.Chain' (hasPoEdge g) p) := by
  intro k
  induction k with
  | zero =>
    intro u p
    simp only [poPathsLen, List.mem_singleton]
    constructor
    · rintro rfl
      exact ⟨rfl, rfl, List.chain'_singleton u⟩
    · rintro ⟨hh, hl, _⟩
      cases p with
      | nil => cases hh
      | cons a q =>
        simp only [List.head?_cons, Option.some_inj] at hh
        subst hh
        simp only [List.length_cons, Nat.add_right_cancel_iff] at hl
        rw [List.length_eq_zero.mp hl]
    | succ k ih =>
    intro u p
    simp only [poPathsLen, List.mem_flatMap, List.mem_map]
    constructor
    · rintro ⟨w, hw, q, hq, rfl⟩
      obtain ⟨hh, hl, hch⟩ := (ih w q).mp hq
      refine ⟨rfl, by simp [hl], ?_⟩
      rw [List.chain'_cons']
      refine ⟨?_, hch⟩
      intro y hy
      rw [hh] at hy
      cases hy
      exact hw
    · rintro ⟨hh, hl, hch⟩
      cases p with
      | nil => cases hh
      | cons a q =>
        simp only [List.head?_cons, Option.some_inj] at hh
        subst hh
        cases q with
        | nil => simp at hl
        | cons w q2 =>
          rw [List.chain'_cons] at hch
          refine ⟨w, hch.1, w :: q2, (ih w (w :: q2)).mpr ⟨rfl, ?_, hch.2⟩, rfl⟩
          simpa using hl

theorem shortestSearch_some {α : Type} (f : Nat → Option α) : ∀ (r k : Nat) (y : α),
    shortestSearch f r k = some y →
    ∃ j, k ≤ j ∧ j < k + r ∧ f j = some y ∧ ∀ i, k ≤ i → i < j → f i = none := by
  intro r
  induction r with
  | zero => intro k y h; cases h
  | succ r ih =>
    intro k y h
    unfold shortestSearch at h
    cases hf : f k with
    | some z =>
      rw [hf] at h
      cases h
      exact ⟨k, le_refl k, by omega, hf, fun i h1 h2 => absurd h1 (by omega)⟩
    | none =>
      rw [hf] at h
      obtain ⟨j, hj1, hj2, hj3, hj4⟩ := ih (k + 1) y h
      refine ⟨j, by omega, by omega, hj3, ?_⟩
      intro i h1 h2
      rcases Nat.eq_or_lt_of_le h1 with rfl | h1
      · exact hf
      · exact hj4 i h1 h2

theorem shortestSearch_none {α : Type} (f : Nat → Option α) : ∀ (r k : Nat),
    shortestSearch f r k = none → ∀ j, k ≤ j → j < k + r → f j = none := by
  intro r
  induction r with
  | zero => intro k _ j h1 h2; omega
  | succ r ih =>
    intro k h j h1 h2
    unfold shortestSearch at h
    cases hf : f k with
    | some z => rw [hf] at h; cases h
    | none =>
      rw [hf] at h
      rcases Nat.eq_or_lt_of_le h1 with rfl | h1
      · exact hf
      · exact ih (k + 1) h j h1 (by omega)

theorem poUniv_length_le {g : Aeg}
    (hwf : ∀ e ∈ g.edges, e.tgt < g.nodes.length) :
    (poUniv g).length ≤ g.nodes.length := by
  have hnd : (poUniv g).Nodup := List.nodup_dedup _
  have hsub : poUniv g ⊆ List.range g.nodes.length := by
    intro x hx
    rw [List.mem_range]
    simp only [poUniv, List.mem_dedup, List.mem_map] at hx
    obtain ⟨e, he, rfl⟩ := hx
    exact hwf e he
  simpa using (hnd.subperm hsub).length_le

theorem head?_some_mem {α : Type} {l : List α} {x : α} (h : l.head? = some x) :
    x ∈ l := by
  cases l with
  | nil => cases h
  | cons a t =>
    simp only [List.head?_cons, Option.some_inj] at h
    subst h
    exact List.mem_cons_self a t

theorem filter_head?_spec {g : Aeg} {u v k : Nat} {p : List Nat}
    (h : ((poPathsLen g u k).filter (fun p => p.getLast? == some v)).head? = some p) :
    p ∈ poPathsLen g u k ∧ p.getLast? = some v := by
  have hmem := head?_some_mem h
  rw [List.mem_filter] at hmem
  exact ⟨hmem.1, by simpa using hmem.2⟩

theorem filter_head?_ne_none {g : Aeg} {u v k : Nat} {p : List Nat}
    (hp : p ∈ poPathsLen g u k) (hl : p.getLast? = some v) :
    ((poPathsLen g u k).filter (fun p => p.getLast? == some v)).head? ≠ none := by
  have hmem : p ∈ (poPathsLen g u k).filter (fun p => p.getLast? == some v) := by
    rw [List.mem_filter]
    exact ⟨hp, by simp [hl]⟩
  intro hnone
  rw [List.head?_eq_none_iff] at hnone
  rw [hnone] at hmem
  cases hmem

/-- From po reachability, a po path whose edge count is at most the
number of graph nodes (needs every edge target in bounds, which
petgraph guarantees by construction). -/
theorem poReach_short_path {g : Aeg}
    (hwf : ∀ e ∈ g.edges, e.tgt < g.nodes.length) {u v : Nat}
    (h : PoReach g u v) :
    ∃ p k, k ≤ g.nodes.length ∧ p ∈ poPathsLen g u k ∧ p.getLast? = some v := by
  have hlen1 : 1 ≤ g.nodes.length := by
    obtain ⟨p, hch, hne, hl⟩ := poReach_path h
    cases p with
    | nil => cases hne rfl
    | cons t p2 =>
      rw [List.chain'_cons] at hch
      simp only [hasPoEdge, poTargets, List.mem_filterMap] at hch
      obtain ⟨e, he, hsome⟩ := hch.1
      have := hwf e he
      omega
  obtain ⟨p, hch, hne, hl⟩ := poReach_path h
  cases p with
  | nil => cases hne rfl
  | cons t p2 =>
    rw [List.chain'_cons] at hch
    have hlast : (t :: p2).getLast? = some v := by simpa using hl
    obtain ⟨l2, hc2, hnd2, hh2, hg2, hs2⟩ :=
      chain_shorten (t :: p2).length (t :: p2) (le_refl _) hch.2
    cases l2 with
    | nil => simp at hh2
    | cons c p3 =>
      simp only [List.head?_cons, Option.some_inj] at hh2
      subst hh2
      have htu : c ∈ poUniv g := poTargets_subset_poUniv g u c hch.1
      have hsub : (c :: p3) ⊆ poUniv g := by
        intro x hx
        rw [List.mem_cons] at hx
        rcases hx with rfl | hx
        · exact htu
        · have hx2 := hs2 (List.mem_cons_of_mem c hx)
          rw [List.mem_cons] at hx2
          rcases hx2 with rfl | hx2
          · exact htu
          · exact chain_mem_poUniv hch.2 x hx2
      have hbound : p3.length + 1 ≤ (poUniv g).length := by
        have := (hnd2.subperm hsub).length_le
        simpa using this
      have huniv := poUniv_length_le hwf
      refine ⟨u :: c :: p3, p3.length + 1, by omega, ?_, ?_⟩
      · rw [mem_poPathsLen]
        refine ⟨rfl, by simp, ?_⟩
        rw [List.chain'_cons]
        exact ⟨hch.1, hc2⟩
      · have : (c :: p3).getLast? = some v := hg2.trans hlast
        simpa using this

/-- Properties of the determinized `poBetween`.  The first conjunct and
the po-only-path part hold for the astar call under every tie-breaking;
the length-minimality conjunct is a property of the canonical
determinization chosen in this file, not certified of petgraph astar. -/
theorem poBetween_spec (g : Aeg) (u v : Nat)
    (hwf : ∀ e ∈ g.edges, e.tgt < g.nodes.length) :
    (poBetween g u v = none ↔ ¬ PoReach g u v) ∧
    ∀ p, poBetween g u v = some p →
      PoPath g u v p ∧ ∀ q, PoPath g u v q → p.length ≤ q.length := by
  by_cases hconn : isPoConnected g u v
  · have hreach : PoReach g u v := (isPoConnected_iff_poReach g u v).mp hconn
    obtain ⟨p0, k0, hk0, hp0, hl0⟩ := poReach_short_path hwf hreach
    have hb : poBetween g u v =
        shortestSearch
          (fun k => ((poPathsLen g u k).filter (fun p => p.getLast? == some v)).head?)
          (g.nodes.length + 1) 0 := by
      unfold poBetween
      rw [if_pos hconn]
    constructor
    · constructor
      · intro hnone
        rw [hb] at hnone
        have := shortestSearch_none _ _ _ hnone k0 (Nat.zero_le k0) (by omega)
        exact absurd this (filter_head?_ne_none hp0 hl0)
      · intro hn
        exact absurd hreach hn
    · intro p hp
      rw [hb] at hp
      obtain ⟨j, _, hj2, hj3, hj4⟩ := shortestSearch_some _ _ _ p hp
      obtain ⟨hpm, hpl⟩ := filter_head?_spec hj3
      rw [mem_poPathsLen] at hpm
      obtain ⟨hph, hplen, hpch⟩ := hpm
      refine ⟨⟨hph, hpl, hpch⟩, ?_⟩
      intro q hq
      obtain ⟨hqh, hql, hqch⟩ := hq
      have hqne : q ≠ [] := by
        intro hqe
        rw [hqe] at hqh
        cases hqh
      have hqlen : 1 ≤ q.length := by
        cases q with
        | nil => cases hqne rfl
        | cons a t => simp
      have hqm : q ∈ poPathsLen g u (q.length - 1) := by
        rw [mem_poPathsLen]
        exact ⟨hqh, by omega, hqch⟩
      by_cases hcmp : q.length - 1 < j
      · have := hj4 (q.length - 1) (Nat.zero_le _) hcmp
        exact absurd this (filter_head?_ne_none hqm hql)
      · omega
  · have hnone : poBetween g u v = none := by
      unfold poBetween
      rw [if_neg hconn]
    constructor
    · rw [hnone]
      constructor
      · intro _ hr
        exact hconn ((isPoConnected_iff_poReach g u v).mpr hr)
      · intro _
        rfl
    · intro p hp
      rw [hnone] at hp
      cases hp


/-- C1: on the classic store-buffer program the builder does produce
exactly 4 nodes (Wx, Ry in t1; Wy, Rx in t2), 2 `ProgramOrder` edges
and 4 directed `Competing` edges (the undirected x-x and y-y pairs) —
but the enumerator under the default TSO configuration returns zero
critical cycles, not the one cycle (with a two-po-edge potential-fence
combination) the specification demands: `_edge_has_delay` runs its
architecture check only on pairs joined by a `Competing` edge, so the
poWR delay of this cycle is never seen. -/
theorem c1_store_buffer_zero_cycles :
    createAeg storeBuffer = some storeBufferAeg ∧
    storeBufferAeg.nodes.length = 4 ∧
    (storeBufferAeg.edges.filter (fun e => e.weight == AegEdge.ProgramOrder)).length = 2 ∧
    (storeBufferAeg.edges.filter (fun e => e.weight == AegEdge.Competing)).length = 4 ∧
    aegNew storeBuffer = some ⟨storeBufferAeg, defaultConfig⟩ ∧
    tsoCriticalCycles ⟨storeBufferAeg, defaultConfig⟩ = .ok [] := by
  have hg : createAeg storeBuffer = some storeBufferAeg := by decide
  refine ⟨hg, by decide, by decide, by decide, ?_, by decide⟩
  simp [aegNew, hg, defaultConfig]

/-- C2: the load-buffering program refutes the claim.  Under TSO the
enumerator returns the cycle `[Ry t1, Wx t1, Rx t2, Wy t2]` (because
the as-written `_edge_has_delay` fires on the `Competing`-joined pair
`Wx → Rx`), yet no adjacent pair of that cycle — wrap-around included —
is po-connected with a `Write` first and a `Read` second. -/
theorem c2_delay_check_counterexample :
    createAeg loadBuffering = some loadBufferingAeg ∧
    tsoCriticalCycles ⟨loadBufferingAeg, defaultConfig⟩ =
      .ok [⟨[0, 1, 2, 3], []⟩] ∧
    (adjacentPairs [0, 1, 2, 3]).all
      (fun ab => !tsoDelayPair loadBufferingAeg ab.1 ab.2) = true := by
  have hg : createAeg loadBuffering = some loadBufferingAeg := by decide
  exact ⟨hg, by decide, by decide⟩

/-- C5: the fenced store-buffer program does not make the enumerator
return zero critical cycles; instead the enumeration panics
(`unimplemented!` in `can_add_node`) as soon as the DFS reaches the
`Fence` node, contradicting the crate's own `fenced_program` test. -/
theorem c5_fenced_program_panics :
    createAeg fencedStoreBuffer = some fencedStoreBufferAeg ∧
    tsoCriticalCycles ⟨fencedStoreBufferAeg, defaultConfig⟩ = .crash ∧
    (aegNew fencedStoreBuffer).map tsoCriticalCycles = some .crash := by
  have hg : createAeg fencedStoreBuffer = some fencedStoreBufferAeg := by decide
  refine ⟨hg, by decide, ?_⟩
  simp [aegNew, hg, defaultConfig]
  decide

set_option maxHeartbeats 4000000 in
/-- C7: the while-loop program produces exactly the six nodes Wx, Rx,
Wy, Wy, Rx' (the duplicated condition read) and Wz, and exactly the
seven `ProgramOrder` edges Wx→Rx, Rx→Wy₁, Wy₁→Wy₂, Wy₂→Rx', Rx'→Wy₁,
Rx→Wz and Rx'→Wz. -/
theorem c7_while_loop_aeg :
    createAeg whileProgram = some whileProgramAeg ∧
    whileProgramAeg.nodes =
      [ .Write "t1" "x", .Read "t1" "x", .Write "t1" "y"
      , .Write "t1" "y", .Read "t1" "x", .Write "t1" "z" ] ∧
    whileProgramAeg.edges.length = 7 ∧
    whileProgramAeg.edges.all (fun e => e.weight == AegEdge.ProgramOrder) = true ∧
    (⟨3, 4, .ProgramOrder⟩ : AegE) ∈ whileProgramAeg.edges ∧
    (⟨4, 2, .ProgramOrder⟩ : AegE) ∈ whileProgramAeg.edges ∧
    (⟨1, 2, .ProgramOrder⟩ : AegE) ∈ whileProgramAeg.edges ∧
    (⟨1, 5, .ProgramOrder⟩ : AegE) ∈ whileProgramAeg.edges ∧
    (⟨4, 5, .ProgramOrder⟩ : AegE) ∈ whileProgramAeg.edges := by
  have hg : createAeg whileProgram = some whileProgramAeg := by decide
  refine ⟨hg, by decide, by decide, by decide, by decide, by decide,
    by decide, by decide, by decide⟩

set_option maxHeartbeats 4000000 in
/-- C6 counterexample: `is_po_connected` is not irreflexive on every
builder-produced AEG.  In `whileLocalCondProgram` the loop's back jump
puts `Wy` (node 1) on a two-node po cycle, and `is_po_connected(1, 1)`
returns `true`. -/
theorem c6_counterexample_self_po_cycle :
    createAeg whileLocalCondProgram = some whileLocalCondAeg ∧
    nodeAt whileLocalCondAeg 1 = some (.Write "t1" "y") ∧
    isPoConnected whileLocalCondAeg 1 1 = true := by
  have hg : createAeg whileLocalCondProgram = some whileLocalCondAeg := by decide
  exact ⟨hg, by decide, by decide⟩

/-- C3 counterexample: when two threads share the name `"t1"`, the
builder still wires competing edges between them (threads are told
apart by index), so a `Competing(u,v)` with `thread(u) = thread(v)`
exists, refuting the claim that the endpoints of a competing edge
always belong to different threads. -/
theorem c3_counterexample_dup_thread_names :
    createAeg dupNameProgram = some dupNameAeg ∧
    (⟨0, 1, .Competing⟩ : AegE) ∈ dupNameAeg.edges ∧
    nodeAt dupNameAeg 0 = some (.Write "t1" "x") ∧
    nodeAt dupNameAeg 1 = some (.Write "t1" "x") := by
  have hg : createAeg dupNameProgram = some dupNameAeg := by decide
  exact ⟨hg, by decide, by decide, by decide⟩

/-- C10: the built graph is independent of the configuration:
`with_config` hands `create_aeg` nothing but the program, so for any
two configurations the graphs agree node-for-node and edge-for-edge
and only the stored config differs. -/
theorem c10_config_independent_graph (p : Program) (c1 c2 : AegConfig)
    (A : AbstractEventGraph) (h : withConfig p c1 = some A) :
    ∃ B, withConfig p c2 = some B ∧ B.graph = A.graph ∧ B.config = c2 := by
  unfold withConfig at h ⊢
  cases hc : createAeg p with
  | none => rw [hc] at h; cases h
  | some g =>
    rw [hc] at h
    cases h
    exact ⟨⟨g, c2⟩, rfl, rfl, rfl⟩

/-- C10 witness: instantiated on the store-buffer program with the TSO
skip-branches configuration versus the Power all-paths configuration. -/
theorem c10_config_independent_graph_witness :
    ∃ B, withConfig storeBuffer ⟨.Power, false⟩ = some B ∧
      B.graph = (⟨storeBufferAeg, ⟨.Tso, true⟩⟩ : AbstractEventGraph).graph ∧
      B.config = ⟨.Power, false⟩ := by
  have hg : createAeg storeBuffer = some storeBufferAeg := by decide
  exact c10_config_independent_graph storeBuffer ⟨.Tso, true⟩ ⟨.Power, false⟩
    ⟨storeBufferAeg, ⟨.Tso, true⟩⟩ (by simp [withConfig, hg])

/-- C6 (amended): `is_po_connected` is transitive, but it is not
irreflexive on every graph: `is_po_connected(n,n)` holds exactly when
`n` lies on a nonempty cycle of `ProgramOrder` edges (which while-loop
back jumps create; see the counterexample theorem). -/
theorem c6_po_connected_transitive (g : Aeg) (a b c n : Nat) :
    (isPoConnected g a b = true → isPoConnected g b c = true →
      isPoConnected g a c = true) ∧
    (isPoConnected g n n = true ↔ PoReach g n n) := by
  constructor
  · intro h1 h2
    rw [isPoConnected_iff_poReach] at h1 h2 ⊢
    exact h1.trans h2
  · exact isPoConnected_iff_poReach g n n

/-- C6 witness: transitivity applied on the while-loop AEG
(`Wy → Ry → Wy`), and the reflexivity characterization instantiated at
the looping node. -/
theorem c6_po_connected_transitive_witness :
    isPoConnected whileLocalCondAeg 1 1 = true ∧ PoReach whileLocalCondAeg 2 2 :=
  ⟨(c6_po_connected_transitive whileLocalCondAeg 1 2 1 0).1 (by decide) (by decide),
   (c6_po_connected_transitive whileLocalCondAeg 0 0 0 2).2.mp (by decide)⟩

theorem handleExpression_snd_length (globals : List Name) (t : ThreadId)
    (e : Expr) (g : Aeg) (reads : List Nat) :
    ((handleExpression globals t g reads e).2).length =
      reads.length + numReadsExpr globals e := by
  cases e with
  | Num n => simp [handleExpression, numReadsExpr]
  | Var v =>
    by_cases hv : v ∈ globals
    · simp [handleExpression, numReadsExpr, hv, addNode]
    · simp [handleExpression, numReadsExpr, hv]

theorem handleCondition_snd_length (globals : List Name) (t : ThreadId) :
    ∀ (c : CondExpr) (g : Aeg) (reads : List Nat),
    ((handleCondition globals t g reads c).2).length =
      reads.length + numCondReads globals c := by
  intro c
  induction c with
  | Neg e ih =>
    intro g reads
    simp only [handleCondition, numCondReads]
    exact ih g reads
  | And e1 e2 ih1 ih2 =>
    intro g reads
    simp only [handleCondition, numCondReads]
    rw [ih2, ih1]
    omega
  | Eq e1 e2 =>
    intro g reads
    simp only [handleCondition, numCondReads]
    rw [handleExpression_snd_length, handleExpression_snd_length]
    omega
  | Leq e1 e2 =>
    intro g reads
    simp only [handleCondition, numCondReads]
    rw [handleExpression_snd_length, handleExpression_snd_length]
    omega

mutual

/-- `handle_statement` fails exactly on statements containing an
unimplemented fence kind. -/
theorem handleStatement_none_iff (globals : List Name) (t : ThreadId) :
    ∀ (s : BuildSt) (stmt : Statement),
    handleStatement globals t s stmt = none ↔ stmtHasBadFence stmt = true
  | s, .Assign v (.Num n) => by
    simp only [handleStatement, stmtHasBadFence]
    split <;> simp
  | s, .Modify v (.Num n) => by
    simp only [handleStatement, stmtHasBadFence]
    split <;> simp
  | s, .Assign v (.Var w) => by
    simp only [handleStatement, stmtHasBadFence]
    split <;> (try split) <;> (try split) <;> simp
  | s, .Modify v (.Var w) => by
    simp only [handleStatement, stmtHasBadFence]
    split <;> (try split) <;> (try split) <;> simp
  | s, .Fence .WR => by
    simp [handleStatement, stmtHasBadFence]
  | s, .Fence .WW => by
    simp [handleStatement, stmtHasBadFence]
  | s, .Fence .RW => by
    simp [handleStatement, stmtHasBadFence]
  | s, .Fence .RR => by
    simp [handleStatement, stmtHasBadFence]
  | s, .If c thn els => by
    simp only [handleStatement, stmtHasBadFence]
    split
    · rename_i heq
      have hbad := (handleStmts_none_iff globals t _ none thn).mp heq
      simp [hbad]
    · rename_i sThn firstThn heq
      have hgood : stmtsHaveBadFence thn = false := by
        by_contra hx
        rw [Bool.not_eq_false] at hx
        rw [← handleStmts_none_iff globals t _ none thn] at hx
        rw [hx] at heq
        cases heq
      split
      · rename_i heq2
        have hbad := (handleStmts_none_iff globals t _ none els).mp heq2
        simp [hgood, hbad]
      · rename_i sEls firstEls heq2
        have hgood2 : stmtsHaveBadFence els = false := by
          by_contra hx
          rw [Bool.not_eq_false] at hx
          rw [← handleStmts_none_iff globals t _ none els] at hx
          rw [hx] at heq2
          cases heq2
        simp [hgood, hgood2]
  | s, .While c body => by
    simp only [handleStatement, stmtHasBadFence]
    split
    · rename_i heq
      have hbad := (handleStmts_none_iff globals t _ none body).mp heq
      simp [hbad]
    · rename_i sBody firstBody heq
      have hgood : stmtsHaveBadFence body = false := by
        by_contra hx
        rw [Bool.not_eq_false] at hx
        rw [← handleStmts_none_iff globals t _ none body] at hx
        rw [hx] at heq
        cases heq
      split
      · -- condition has a first read
        rename_i fc hfc
        split
        · -- body has a first node: the duplicated-condition unwrap
          rename_i fb hfb
          split
          · -- getLast? of the duplicated reads is none: impossible
            rename_i hlast2
            rw [List.getLast?_eq_none_iff] at hlast2
            have h1 : ((handleCondition globals t s.g [] c).2).length =
                numCondReads globals c := by
              rw [handleCondition_snd_length]
              simp
            have h2 : ((handleCondition globals t sBody.g [] c).2).length =
                numCondReads globals c := by
              rw [handleCondition_snd_length]
              simp
            have hne : (handleCondition globals t s.g [] c).2 ≠ [] := by
              intro hx
              rw [hx] at hfc
              cases hfc
            have : numCondReads globals c ≠ 0 := by
              intro hx
              rw [hx] at h1
              exact hne (List.length_eq_zero.mp h1)
            rw [hlast2] at h2
            simp at h2
            exact absurd h2.symm this
          · simp [hgood]
        · simp [hgood]
      · split
        · simp [hgood]
        · simp [hgood]

/-- The statement-list fold fails exactly when some statement of the
list contains an unimplemented fence kind. -/
theorem handleStmts_none_iff (globals : List Name) (t : ThreadId) :
    ∀ (s : BuildSt) (facc : Option (List Nat)) (l : StmtList),
    handleStmts globals t s facc l = none ↔ stmtsHaveBadFence l = true
  | s, facc, .nil => by
    simp [handleStmts, stmtsHaveBadFence]
  | s, facc, .cons stmt rest => by
    simp only [handleStmts, stmtsHaveBadFence]
    split
    · rename_i heq
      have hbad := (handleStatement_none_iff globals t s stmt).mp heq
      simp [hbad]
    · rename_i s1 f heq
      have hgood : stmtHasBadFence stmt = false := by
        by_contra hx
        rw [Bool.not_eq_false] at hx
        rw [← handleStatement_none_iff globals t s stmt] at hx
        rw [hx] at heq
        cases heq
      rw [handleStmts_none_iff globals t _ _ rest]
      simp [hgood]

end

theorem threadStep_none_iff (globals : List Name) (acc : Aeg × List ThreadNodes)
    (th : Thread) :
    threadStep globals acc th = none ↔ stmtsHaveBadFence th.instructions = true := by
  unfold threadStep
  cases hs : handleStmts globals th.name ⟨acc.1, [], [], []⟩ none th.instructions with
  | none =>
    have hbad := (handleStmts_none_iff globals th.name _ none th.instructions).mp hs
    simp [hbad]
  | some r =>
    have hgood : stmtsHaveBadFence th.instructions = false := by
      by_contra hx
      rw [Bool.not_eq_false] at hx
      rw [← handleStmts_none_iff globals th.name ⟨acc.1, [], [], []⟩ none
        th.instructions] at hx
      rw [hx] at hs
      cases hs
    obtain ⟨s1, f1⟩ := r
    simp [hgood]

theorem threads_foldlM_none_iff (globals : List Name) :
    ∀ (ths : List Thread) (acc : Aeg × List ThreadNodes),
    (ths.foldlM (threadStep globals) acc) = none ↔
      (ths.any (fun th => stmtsHaveBadFence th.instructions)) = true := by
  intro ths
  induction ths with
  | nil => intro acc; simp
  | cons th rest ih =>
    intro acc
    rw [List.foldlM_cons]
    cases hs : threadStep globals acc th with
    | none =>
      have hbad := (threadStep_none_iff globals acc th).mp hs
      simp [hbad]
    | some r =>
      have hgood : stmtsHaveBadFence th.instructions = false := by
        by_contra hx
        rw [Bool.not_eq_false] at hx
        rw [← threadStep_none_iff globals acc th] at hx
        rw [hx] at hs
        cases hs
      simp only [Option.bind_eq_bind, Option.some_bind, List.any_cons, hgood,
        Bool.false_or]
      exact ih _

/-- C8: the builder fails exactly when some thread contains an
unimplemented fence kind (`Fence(WW)`, `Fence(RW)` or `Fence(RR)`). -/
theorem c8_createAeg_none_iff (p : Program) :
    createAeg p = none ↔ progHasBadFence p = true := by
  unfold createAeg progHasBadFence
  cases hf : (p.threads.foldlM (threadStep p.global_vars)
      (⟨⟨[], []⟩, []⟩ : Aeg × List ThreadNodes)) with
  | none =>
    simp only [hf, Option.bind_eq_bind, Option.none_bind]
    simp only [← threads_foldlM_none_iff p.global_vars p.threads
      (⟨⟨[], []⟩, []⟩ : Aeg × List ThreadNodes), hf]
  | some r =>
    have hgood : (p.threads.any (fun th => stmtsHaveBadFence th.instructions)) = false := by
      by_contra hx
      rw [Bool.not_eq_false] at hx
      rw [← threads_foldlM_none_iff p.global_vars p.threads
        (⟨⟨[], []⟩, []⟩ : Aeg × List ThreadNodes)] at hx
      rw [hx] at hf
      cases hf
    simp [hf, hgood]

theorem updateEdge_nodes (g : Aeg) (a b : Nat) (w : AegEdge) :
    (updateEdge g a b w).nodes = g.nodes := by
  unfold updateEdge
  cases findEdge g a b <;> rfl

theorem updateEdge_mem_forward {g : Aeg} {a b : Nat} {w : AegEdge} {e : AegE}
    (h : e ∈ (updateEdge g a b w).edges) :
    e ∈ g.edges ∨ (e.src = a ∧ e.tgt = b ∧ e.weight = w) := by
  unfold updateEdge at h
  cases hf : findEdge g a b with
  | some i =>
    rw [hf] at h
    simp only at h
    rcases List.mem_or_eq_of_mem_set h with h2 | rfl
    · exact Or.inl h2
    · exact Or.inr ⟨rfl, rfl, rfl⟩
  | none =>
    rw [hf] at h
    simp only [List.mem_append, List.mem_singleton] at h
    rcases h with h2 | rfl
    · exact Or.inl h2
    · exact Or.inr ⟨rfl, rfl, rfl⟩

theorem findEdge_eq_some {g : Aeg} {a b : Nat} {i : Nat}
    (h : findEdge g a b = some i) :
    ∃ hlt : i < g.edges.length, g.edges[i].src = a ∧ g.edges[i].tgt = b := by
  unfold findEdge at h
  rw [List.findIdx?_eq_some_iff_getElem] at h
  obtain ⟨hlt, hp, _⟩ := h
  rw [decide_eq_true_eq] at hp
  exact ⟨hlt, hp⟩

theorem findEdge_eq_none {g : Aeg} {a b : Nat}
    (h : findEdge g a b = none) :
    ∀ e ∈ g.edges, ¬(e.src = a ∧ e.tgt = b) := by
  unfold findEdge at h
  rw [List.findIdx?_eq_none_iff] at h
  intro e he
  have := h e he
  rwa [decide_eq_false_iff_not] at this

theorem updateEdge_mem_backward {g : Aeg} {a b : Nat} {w : AegEdge} {e : AegE}
    (h : e ∈ g.edges) :
    ∃ e2 ∈ (updateEdge g a b w).edges, e2.src = e.src ∧ e2.tgt = e.tgt ∧
      (e2.weight = e.weight ∨ e2.weight = w) := by
  unfold updateEdge
  cases hf : findEdge g a b with
  | none =>
    exact ⟨e, by simp [h], rfl, rfl, Or.inl rfl⟩
  | some i =>
    obtain ⟨hlt, hsrc, htgt⟩ := findEdge_eq_some hf
    by_cases hpair : e.src = a ∧ e.tgt = b
    · exact ⟨⟨a, b, w⟩, List.mem_set g.edges i hlt ⟨a, b, w⟩,
        hpair.1.symm, hpair.2.symm, Or.inr rfl⟩
    · obtain ⟨j, hj, hje⟩ := List.mem_iff_getElem.mp h
      have hji : i ≠ j := by
        intro hx
        subst hx
        rw [hje] at hsrc htgt
        exact hpair ⟨hsrc, htgt⟩
      refine ⟨e, ?_, rfl, rfl, Or.inl rfl⟩
      rw [List.mem_iff_getElem]
      refine ⟨j, by simpa using hj, ?_⟩
      rw [List.getElem_set_ne hji]
      exact hje

theorem set_getElem_eq_self {α : Type} : ∀ (l : List α) (i : Nat)
    (h : i < l.length), l.set i l[i] = l
  | [], _, h => by cases h
  | a :: t, 0, _ => rfl
  | a :: t, i + 1, h => by
    simp only [List.set_cons_succ, List.cons.injEq, true_and]
    exact set_getElem_eq_self t i (by simpa using h)

theorem updateEdge_wf {g : Aeg} {a b : Nat} {w : AegEdge}
    (hg : GraphWF g) (ha : a < g.nodes.length) (hb : b < g.nodes.length)
    (hab : a ≠ b) : GraphWF (updateEdge g a b w) := by
  obtain ⟨hbd, hself, hdup⟩ := hg
  refine ⟨?_, ?_, ?_⟩
  · intro e he
    rw [updateEdge_nodes]
    rcases updateEdge_mem_forward he with h2 | ⟨h1, h2, _⟩
    · exact hbd e h2
    · rw [h1, h2]; exact ⟨ha, hb⟩
  · intro e he
    rcases updateEdge_mem_forward he with h2 | ⟨h1, h2, _⟩
    · exact hself e h2
    · rw [h1, h2]; exact hab
  · unfold NoDupEdges at hdup ⊢
    unfold updateEdge
    cases hf : findEdge g a b with
    | some i =>
      obtain ⟨hlt, hsrc, htgt⟩ := findEdge_eq_some hf
      simp only [List.map_set]
      have hlt2 : i < (g.edges.map (fun e => (e.src, e.tgt))).length := by
        simpa using hlt
      have hpair : ((g.edges.map (fun e => (e.src, e.tgt)))[i]) =
          (a, b) := by
        rw [List.getElem_map]
        rw [hsrc, htgt]
      rw [show ((⟨a, b, w⟩ : AegE).src, (⟨a, b, w⟩ : AegE).tgt) = (a, b) from rfl,
        ← hpair, set_getElem_eq_self]
      exact hdup
    | none =>
      simp only [List.map_append, List.map_cons, List.map_nil]
      rw [List.nodup_append]
      refine ⟨hdup, List.nodup_singleton _, ?_⟩
      intro x hx hx2
      simp only [List.mem_singleton] at hx2
      subst hx2
      rw [List.mem_map] at hx
      obtain ⟨e, he, hpe⟩ := hx
      have := findEdge_eq_none hf e he
      apply this
      constructor
      · exact congrArg Prod.fst hpe
      · exact congrArg Prod.snd hpe

theorem updateEdge_allpo {g : Aeg} {a b : Nat}
    (hg : AllPo g) : AllPo (updateEdge g a b .ProgramOrder) := by
  intro e he
  rcases updateEdge_mem_forward he with h2 | ⟨_, _, h3⟩
  · exact hg e h2
  · exact h3

theorem addEdgeRaw_nodes (g : Aeg) (a b : Nat) (w : AegEdge) :
    (addEdgeRaw g a b w).nodes = g.nodes := rfl

theorem addEdgeRaw_wf {g : Aeg} {a b : Nat} {w : AegEdge}
    (hg : GraphWF g) (ha : a < g.nodes.length) (hb : b < g.nodes.length)
    (hab : a ≠ b) (hfresh : ∀ e ∈ g.edges, ¬(e.src = a ∧ e.tgt = b)) :
    GraphWF (addEdgeRaw g a b w) := by
  obtain ⟨hbd, hself, hdup⟩ := hg
  refine ⟨?_, ?_, ?_⟩
  · intro e he
    rcases List.mem_append.mp he with h2 | h2
    · exact hbd e h2
    · rw [List.mem_singleton] at h2
      subst h2
      exact ⟨ha, hb⟩
  · intro e he
    rcases List.mem_append.mp he with h2 | h2
    · exact hself e h2
    · rw [List.mem_singleton] at h2
      subst h2
      exact hab
  · unfold NoDupEdges at hdup ⊢
    simp only [addEdgeRaw, List.map_append, List.map_cons, List.map_nil]
    rw [List.nodup_append]
    refine ⟨hdup, List.nodup_singleton _, ?_⟩
    intro x hx hx2
    simp only [List.mem_singleton] at hx2
    subst hx2
    rw [List.mem_map] at hx
    obtain ⟨e, he, hpe⟩ := hx
    exact hfresh e he ⟨congrArg Prod.fst hpe, congrArg Prod.snd hpe⟩

theorem addEdgeRaw_allpo {g : Aeg} {a b : Nat}
    (hg : AllPo g) : AllPo (addEdgeRaw g a b .ProgramOrder) := by
  intro e he
  rcases List.mem_append.mp he with h2 | h2
  · exact hg e h2
  · rw [List.mem_singleton] at h2
    subst h2
    rfl

theorem addNode_wf {g : Aeg} {nd : Node} (hg : GraphWF g) :
    GraphWF (addNode g nd).1 := by
  obtain ⟨hbd, hself, hdup⟩ := hg
  refine ⟨?_, hself, hdup⟩
  intro e he
  have := hbd e he
  simp only [addNode, List.length_append, List.length_cons, List.length_nil]
  omega

theorem addNode_allpo {g : Aeg} {nd : Node} (hg : AllPo g) :
    AllPo (addNode g nd).1 := hg

theorem foldl_inv {α β : Type} {P : β → Prop} {f : β → α → β} :
    ∀ (l : List α) (b : β), P b → (∀ x ∈ l, ∀ b2, P b2 → P (f b2 x)) →
    P (l.foldl f b)
  | [], b, hb, _ => hb
  | x :: rest, b, hb, hstep =>
    foldl_inv rest (f b x) (hstep x (List.mem_cons_self x rest) b hb)
      (fun y hy => hstep y (List.mem_cons_of_mem x hy))

theorem connectPrevious_nodes (g : Aeg) (last : List Nat) (cur : Nat) :
    (connectPrevious g last cur).nodes = g.nodes := by
  unfold connectPrevious
  refine foldl_inv (P := fun g2 => g2.nodes = g.nodes) last g rfl ?_
  intro n _ g2 hg2
  split
  · rw [updateEdge_nodes, hg2]
  · exact hg2

theorem connectPrevious_wf {g : Aeg} {last : List Nat} {cur : Nat}
    (hg : GraphWF g) (hlast : ∀ n ∈ last, n < g.nodes.length)
    (hcur : cur < g.nodes.length) : GraphWF (connectPrevious g last cur) := by
  unfold connectPrevious
  refine foldl_inv (P := fun g2 => GraphWF g2 ∧ g2.nodes = g.nodes) last g
    ⟨hg, rfl⟩ ?_ |>.1
  intro n hn g2 hg2
  split
  · constructor
    · refine updateEdge_wf hg2.1 ?_ ?_ (by assumption)
      · rw [hg2.2]; exact hlast n hn
      · rw [hg2.2]; exact hcur
    · rw [updateEdge_nodes, hg2.2]
  · exact hg2

theorem connectPrevious_allpo {g : Aeg} {last : List Nat} {cur : Nat}
    (hg : AllPo g) : AllPo (connectPrevious g last cur) := by
  unfold connectPrevious
  refine foldl_inv (P := AllPo) last g hg ?_
  intro n _ g2 hg2
  split
  · exact updateEdge_allpo hg2
  · exact hg2

theorem nodesExt_rfl {g : Aeg} : NodesExt g g := ⟨[], by simp⟩

theorem nodesExt_trans {g1 g2 g3 : Aeg} (h1 : NodesExt g1 g2)
    (h2 : NodesExt g2 g3) : NodesExt g1 g3 := by
  obtain ⟨e1, he1⟩ := h1
  obtain ⟨e2, he2⟩ := h2
  exact ⟨e1 ++ e2, by rw [he2, he1, List.append_assoc]⟩

theorem nodesExt_len_le {g g2 : Aeg} (h : NodesExt g g2) :
    g.nodes.length ≤ g2.nodes.length := by
  obtain ⟨e1, he1⟩ := h
  rw [he1]
  simp

theorem nodeAt_ext {g g2 : Aeg} {n : Nat} {x : Node} (h : NodesExt g g2)
    (hx : nodeAt g n = some x) : nodeAt g2 n = some x := by
  obtain ⟨e1, he1⟩ := h
  unfold nodeAt at hx ⊢
  rw [he1]
  have hn : n < g.nodes.length := by
    by_contra hc
    rw [List.get?_eq_none.mpr (by omega)] at hx
    cases hx
  rw [List.get?_append hn]
  exact hx

theorem addNode_nodeAt_new (g : Aeg) (nd : Node) :
    nodeAt (addNode g nd).1 (addNode g nd).2 = some nd := by
  unfold addNode nodeAt
  simp only [List.get?_eq_getElem?]
  exact List.getElem?_concat_length g.nodes nd

theorem addNode_ext (g : Aeg) (nd : Node) : NodesExt g (addNode g nd).1 :=
  ⟨[nd], rfl⟩

theorem nodesExt_of_nodes_eq {g g2 : Aeg} (h : g2.nodes = g.nodes) :
    NodesExt g g2 := ⟨[], by rw [h]; simp⟩

theorem readsOk_ext {lo : Nat} {t : ThreadId} {g g2 : Aeg} {l : List Nat}
    (h : ReadsOk lo t g l) (hext : NodesExt g g2) : ReadsOk lo t g2 l := by
  intro n hn
  obtain ⟨h1, h2, m, h3⟩ := h n hn
  exact ⟨h1, Nat.lt_of_lt_of_le h2 (nodesExt_len_le hext), m, nodeAt_ext hext h3⟩

theorem writesOk_ext {lo : Nat} {t : ThreadId} {g g2 : Aeg} {l : List Nat}
    (h : WritesOk lo t g l) (hext : NodesExt g g2) : WritesOk lo t g2 l := by
  intro n hn
  obtain ⟨h1, h2, m, h3⟩ := h n hn
  exact ⟨h1, Nat.lt_of_lt_of_le h2 (nodesExt_len_le hext), m, nodeAt_ext hext h3⟩

theorem BOk_intro {lo : Nat} {t : ThreadId} {g : Aeg}
    {last reads writes : List Nat}
    (h1 : GraphWF g) (h2 : AllPo g) (h3 : lo ≤ g.nodes.length)
    (h4 : ∀ n ∈ last, n < g.nodes.length) (h5 : ReadsOk lo t g reads)
    (h6 : WritesOk lo t g writes) : BOk lo t ⟨g, last, reads, writes⟩ :=
  ⟨h1, h2, h3, h4, h5, h6⟩

theorem handleExpression_ok (globals : List Name) (t : ThreadId) (lo : Nat)
    (e : Expr) (g : Aeg) (reads : List Nat)
    (hg : GraphWF g) (hpo : AllPo g) (hlo : lo ≤ g.nodes.length)
    (hr : ReadsOk lo t g reads) :
    GraphWF (handleExpression globals t g reads e).1 ∧
    AllPo (handleExpression globals t g reads e).1 ∧
    NodesExt g (handleExpression globals t g reads e).1 ∧
    ReadsOk lo t (handleExpression globals t g reads e).1
      (handleExpression globals t g reads e).2 := by
  cases e with
  | Num n => exact ⟨hg, hpo, nodesExt_rfl, hr⟩
  | Var v =>
    by_cases hv : v ∈ globals
    · simp only [handleExpression, hv, if_pos]
      have hnodeAt := addNode_nodeAt_new g (.Read t v)
      have hext := addNode_ext g (.Read t v)
      have hg1 : GraphWF (addNode g (.Read t v)).1 := addNode_wf hg
      have hlen1 : (addNode g (.Read t v)).1.nodes.length = g.nodes.length + 1 := by
        simp [addNode]
      have hidx : (addNode g (.Read t v)).2 = g.nodes.length := rfl
      cases hlast : reads.getLast? with
      | none =>
        simp only
        refine ⟨hg1, hpo, hext, ?_⟩
        intro n hn
        rcases List.mem_append.mp hn with hn2 | hn2
        · exact (readsOk_ext hr hext) n hn2
        · rw [List.mem_singleton] at hn2
          subst hn2
          refine ⟨by omega, by omega, v, ?_⟩
          simpa using hnodeAt
      | some prev =>
        simp only
        have hprev : prev ∈ reads := List.mem_of_getLast?_eq_some hlast
        obtain ⟨hp1, hp2, m, hp3⟩ := hr prev hprev
        have hfresh : ∀ e2 ∈ (addNode g (.Read t v)).1.edges,
            ¬(e2.src = prev ∧ e2.tgt = (addNode g (.Read t v)).2) := by
          intro e2 he2 hx
          obtain ⟨hx1, hx2⟩ := hx
          have := hg.1 e2 he2
          omega
        have hg2 : GraphWF (addEdgeRaw (addNode g (.Read t v)).1 prev
            (addNode g (.Read t v)).2 .ProgramOrder) := by
          refine addEdgeRaw_wf hg1 ?_ ?_ ?_ hfresh
          · omega
          · omega
          · omega
        refine ⟨hg2, addEdgeRaw_allpo hpo, ?_, ?_⟩
        · exact hext
        · intro n hn
          rcases List.mem_append.mp hn with hn2 | hn2
          · obtain ⟨h1, h2, m2, h3⟩ := hr n hn2
            refine ⟨h1, by simp only [addEdgeRaw]; omega, m2, ?_⟩
            exact nodeAt_ext hext h3
          · rw [List.mem_singleton] at hn2
            subst hn2
            refine ⟨by omega, by simp only [addEdgeRaw]; omega, v, ?_⟩
            simpa using hnodeAt
    · simp only [handleExpression, hv, if_neg, not_false_iff]
      exact ⟨hg, hpo, nodesExt_rfl, hr⟩

theorem handleCondition_ok (globals : List Name) (t : ThreadId) (lo : Nat) :
    ∀ (c : CondExpr) (g : Aeg) (reads : List Nat),
    GraphWF g → AllPo g → lo ≤ g.nodes.length → ReadsOk lo t g reads →
    GraphWF (handleCondition globals t g reads c).1 ∧
    AllPo (handleCondition globals t g reads c).1 ∧
    NodesExt g (handleCondition globals t g reads c).1 ∧
    ReadsOk lo t (handleCondition globals t g reads c).1
      (handleCondition globals t g reads c).2 := by
  intro c
  induction c with
  | Neg e ih =>
    intro g reads hg hpo hlo hr
    exact ih g reads hg hpo hlo hr
  | And e1 e2 ih1 ih2 =>
    intro g reads hg hpo hlo hr
    obtain ⟨h1, h2, h3, h4⟩ := ih1 g reads hg hpo hlo hr
    obtain ⟨k1, k2, k3, k4⟩ := ih2 (handleCondition globals t g reads e1).1
      (handleCondition globals t g reads e1).2 h1 h2
      (Nat.le_trans hlo (nodesExt_len_le h3)) h4
    exact ⟨k1, k2, nodesExt_trans h3 k3, k4⟩
  | Eq e1 e2 =>
    intro g reads hg hpo hlo hr
    obtain ⟨h1, h2, h3, h4⟩ := handleExpression_ok globals t lo e1 g reads
      hg hpo hlo hr
    obtain ⟨k1, k2, k3, k4⟩ := handleExpression_ok globals t lo e2
      (handleExpression globals t g reads e1).1
      (handleExpression globals t g reads e1).2 h1 h2
      (Nat.le_trans hlo (nodesExt_len_le h3)) h4
    exact ⟨k1, k2, nodesExt_trans h3 k3, k4⟩
  | Leq e1 e2 =>
    intro g reads hg hpo hlo hr
    obtain ⟨h1, h2, h3, h4⟩ := handleExpression_ok globals t lo e1 g reads
      hg hpo hlo hr
    obtain ⟨k1, k2, k3, k4⟩ := handleExpression_ok globals t lo e2
      (handleExpression globals t g reads e1).1
      (handleExpression globals t g reads e1).2 h1 h2
      (Nat.le_trans hlo (nodesExt_len_le h3)) h4
    exact ⟨k1, k2, nodesExt_trans h3 k3, k4⟩


theorem firstOk_ext {g g2 : Aeg} {f : Option (List Nat)} (h : FirstOk g f)
    (hext : NodesExt g g2) : FirstOk g2 f := by
  intro l hl n hn
  exact Nat.lt_of_lt_of_le (h l hl n hn) (nodesExt_len_le hext)

theorem firstOk_none {g : Aeg} : FirstOk g none := by
  intro l hl
  cases hl

theorem head?_mem {α : Type} {l : List α} {a : α} (h : l.head? = some a) :
    a ∈ l := by
  cases l with
  | nil => cases h
  | cons x xs =>
    rw [List.head?_cons, Option.some_inj] at h
    subst h
    exact List.mem_cons_self _ _

theorem mergeFold_mem :
    ∀ (xs acc : List Nat) (n : Nat),
    n ∈ xs.foldl (fun acc n => if n ∈ acc then acc else acc ++ [n]) acc →
    n ∈ acc ∨ n ∈ xs
  | [], _, _, h => Or.inl h
  | x :: xs, acc, n, h => by
    rcases mergeFold_mem xs _ n h with h2 | h2
    · simp only at h2
      by_cases hx : x ∈ acc
      · rw [if_pos hx] at h2
        exact Or.inl h2
      · rw [if_neg hx] at h2
        rcases List.mem_append.mp h2 with h3 | h3
        · exact Or.inl h3
        · rw [List.mem_singleton] at h3
          subst h3
          exact Or.inr (List.mem_cons_self _ _)
    · exact Or.inr (List.mem_cons_of_mem x h2)

/-- Adding one node and wiring it after `last` preserves the invariant
and yields a well-placed fresh node. -/
theorem addConnect_ok {lo : Nat} {t : ThreadId} {s : BuildSt} (nd : Node)
    (h : BOk lo t s) :
    GraphWF (connectPrevious (addNode s.g nd).1 s.last (addNode s.g nd).2) ∧
    AllPo (connectPrevious (addNode s.g nd).1 s.last (addNode s.g nd).2) ∧
    NodesExt s.g (connectPrevious (addNode s.g nd).1 s.last (addNode s.g nd).2) ∧
    (connectPrevious (addNode s.g nd).1 s.last (addNode s.g nd).2).nodes.length
      = s.g.nodes.length + 1 ∧
    nodeAt (connectPrevious (addNode s.g nd).1 s.last (addNode s.g nd).2)
      s.g.nodes.length = some nd := by
  obtain ⟨hwf, hpo, hlo, hlast, hr, hw⟩ := h
  have hlen1 : (addNode s.g nd).1.nodes.length = s.g.nodes.length + 1 := by
    simp [addNode]
  have hcur : (addNode s.g nd).2 < (addNode s.g nd).1.nodes.length := by
    show s.g.nodes.length < _
    omega
  have hlast1 : ∀ n ∈ s.last, n < (addNode s.g nd).1.nodes.length := by
    intro n hn
    have := hlast n hn
    omega
  have hnodes := connectPrevious_nodes (addNode s.g nd).1 s.last (addNode s.g nd).2
  refine ⟨connectPrevious_wf (addNode_wf hwf) hlast1 hcur,
    connectPrevious_allpo (addNode_allpo hpo), ?_, ?_, ?_⟩
  · exact nodesExt_trans (addNode_ext s.g nd) (nodesExt_of_nodes_eq hnodes)
  · rw [hnodes, hlen1]
  · exact nodeAt_ext (nodesExt_of_nodes_eq hnodes) (addNode_nodeAt_new s.g nd)

/-- Result invariant for a statement that emits a single `Write` node. -/
theorem writeOnly_ok {lo : Nat} {t : ThreadId} {s : BuildSt} (v : Name)
    (hB : BOk lo t s) :
    ∀ g2 L, g2 = connectPrevious (addNode s.g (.Write t v)).1 s.last
        (addNode s.g (.Write t v)).2 →
    L = (addNode s.g (.Write t v)).2 →
    BOk lo t ⟨g2, [L], s.reads, s.writes ++ [L]⟩ ∧ NodesExt s.g g2 ∧
      FirstOk g2 (some [L]) := by
  intro g2 L h2 hL
  subst h2
  subst hL
  obtain ⟨hwf2, hpo2, hext2, hlen2, hnode2⟩ := addConnect_ok (.Write t v) hB
  obtain ⟨hwf, hpo, hlo, hlast, hrd, hwr⟩ := hB
  have hidx : (addNode s.g (.Write t v)).2 = s.g.nodes.length := rfl
  have h3 : lo ≤ (connectPrevious (addNode s.g (.Write t v)).1 s.last
      (addNode s.g (.Write t v)).2).nodes.length := by omega
  have h4 : ∀ n ∈ [(addNode s.g (.Write t v)).2], n < (connectPrevious
      (addNode s.g (.Write t v)).1 s.last
      (addNode s.g (.Write t v)).2).nodes.length := by
    intro n hn
    rw [List.mem_singleton] at hn
    subst hn
    omega
  have h6 : WritesOk lo t (connectPrevious (addNode s.g (.Write t v)).1 s.last
      (addNode s.g (.Write t v)).2)
      (s.writes ++ [(addNode s.g (.Write t v)).2]) := by
    intro n hn
    rcases List.mem_append.mp hn with h2 | h2
    · exact (writesOk_ext hwr hext2) n h2
    · rw [List.mem_singleton] at h2
      subst h2
      exact ⟨by omega, by omega, v, by rw [hidx]; exact hnode2⟩
  have hfo : FirstOk (connectPrevious (addNode s.g (.Write t v)).1 s.last
      (addNode s.g (.Write t v)).2) (some [(addNode s.g (.Write t v)).2]) := by
    intro l hl n hn
    rw [Option.some_inj] at hl
    subst hl
    rw [List.mem_singleton] at hn
    subst hn
    omega
  exact ⟨BOk_intro hwf2 hpo2 h3 h4 (readsOk_ext hrd hext2) h6, hext2, hfo⟩

/-- Result invariant for a statement that emits a single `Read` node. -/
theorem readOnly_ok {lo : Nat} {t : ThreadId} {s : BuildSt} (v : Name)
    (hB : BOk lo t s) :
    ∀ g2 L, g2 = connectPrevious (addNode s.g (.Read t v)).1 s.last
        (addNode s.g (.Read t v)).2 →
    L = (addNode s.g (.Read t v)).2 →
    BOk lo t ⟨g2, [L], s.reads ++ [L], s.writes⟩ ∧ NodesExt s.g g2 ∧
      FirstOk g2 (some [L]) := by
  intro g2 L h2 hL
  subst h2
  subst hL
  obtain ⟨hwf2, hpo2, hext2, hlen2, hnode2⟩ := addConnect_ok (.Read t v) hB
  obtain ⟨hwf, hpo, hlo, hlast, hrd, hwr⟩ := hB
  have hidx : (addNode s.g (.Read t v)).2 = s.g.nodes.length := rfl
  have h3 : lo ≤ (connectPrevious (addNode s.g (.Read t v)).1 s.last
      (addNode s.g (.Read t v)).2).nodes.length := by omega
  have h4 : ∀ n ∈ [(addNode s.g (.Read t v)).2], n < (connectPrevious
      (addNode s.g (.Read t v)).1 s.last
      (addNode s.g (.Read t v)).2).nodes.length := by
    intro n hn
    rw [List.mem_singleton] at hn
    subst hn
    omega
  have h5 : ReadsOk lo t (connectPrevious (addNode s.g (.Read t v)).1 s.last
      (addNode s.g (.Read t v)).2)
      (s.reads ++ [(addNode s.g (.Read t v)).2]) := by
    intro n hn
    rcases List.mem_append.mp hn with h2 | h2
    · exact (readsOk_ext hrd hext2) n h2
    · rw [List.mem_singleton] at h2
      subst h2
      exact ⟨by omega, by omega, v, by rw [hidx]; exact hnode2⟩
  have hfo : FirstOk (connectPrevious (addNode s.g (.Read t v)).1 s.last
      (addNode s.g (.Read t v)).2) (some [(addNode s.g (.Read t v)).2]) := by
    intro l hl n hn
    rw [Option.some_inj] at hl
    subst hl
    rw [List.mem_singleton] at hn
    subst hn
    omega
  exact ⟨BOk_intro hwf2 hpo2 h3 h4 h5 (writesOk_ext hwr hext2), hext2, hfo⟩

/-- Result invariant for the `Fence(WR)` statement. -/
theorem fenceStep_ok {lo : Nat} {t : ThreadId} {s : BuildSt}
    (hB : BOk lo t s) :
    ∀ g2 L, g2 = connectPrevious (addNode s.g (.Fence t .Full)).1 s.last
        (addNode s.g (.Fence t .Full)).2 →
    L = (addNode s.g (.Fence t .Full)).2 →
    BOk lo t ⟨g2, [L], s.reads, s.writes⟩ ∧ NodesExt s.g g2 ∧
      FirstOk g2 (some [L]) := by
  intro g2 L h2 hL
  subst h2
  subst hL
  obtain ⟨hwf2, hpo2, hext2, hlen2, hnode2⟩ := addConnect_ok (.Fence t .Full) hB
  obtain ⟨hwf, hpo, hlo, hlast, hrd, hwr⟩ := hB
  have h3 : lo ≤ (connectPrevious (addNode s.g (.Fence t .Full)).1 s.last
      (addNode s.g (.Fence t .Full)).2).nodes.length := by omega
  have h4 : ∀ n ∈ [(addNode s.g (.Fence t .Full)).2], n < (connectPrevious
      (addNode s.g (.Fence t .Full)).1 s.last
      (addNode s.g (.Fence t .Full)).2).nodes.length := by
    intro n hn
    rw [List.mem_singleton] at hn
    subst hn
    have hidx : (addNode s.g (.Fence t .Full)).2 = s.g.nodes.length := rfl
    omega
  have hfo : FirstOk (connectPrevious (addNode s.g (.Fence t .Full)).1 s.last
      (addNode s.g (.Fence t .Full)).2)
      (some [(addNode s.g (.Fence t .Full)).2]) := by
    intro l hl n hn
    rw [Option.some_inj] at hl
    subst hl
    rw [List.mem_singleton] at hn
    subst hn
    have hidx : (addNode s.g (.Fence t .Full)).2 = s.g.nodes.length := rfl
    omega
  exact ⟨BOk_intro hwf2 hpo2 h3 h4 (readsOk_ext hrd hext2) (writesOk_ext hwr hext2), hext2, hfo⟩

/-- Result invariant for the write-then-read assignment branch. -/
theorem assignVar_ok {lo : Nat} {t : ThreadId} {s : BuildSt} (vw vr : Name)
    (hB : BOk lo t s) :
    ∀ g1 L g2 R g3 g4,
    g1 = (addNode s.g (.Write t vw)).1 →
    L = (addNode s.g (.Write t vw)).2 →
    g2 = (addNode g1 (.Read t vr)).1 →
    R = (addNode g1 (.Read t vr)).2 →
    g3 = connectPrevious g2 s.last L →
    g4 = updateEdge g3 R L .ProgramOrder →
    BOk lo t ⟨g4, [L], s.reads ++ [R], s.writes ++ [L]⟩ ∧ NodesExt s.g g4 ∧
      FirstOk g4 (some [L]) := by
  intro g1 L g2 R g3 g4 h1 hL h2 hR h3 h4
  subst h1
  subst hL
  subst h2
  subst hR
  subst h3
  subst h4
  obtain ⟨hwf, hpo, hlo, hlast, hrd, hwr⟩ := hB
  have hidxL : (addNode s.g (.Write t vw)).2 = s.g.nodes.length := rfl
  have hlen1 : (addNode s.g (.Write t vw)).1.nodes.length = s.g.nodes.length + 1 := by
    simp [addNode]
  have hidxR : (addNode (addNode s.g (.Write t vw)).1 (.Read t vr)).2
      = (addNode s.g (.Write t vw)).1.nodes.length := rfl
  have hlen2 : (addNode (addNode s.g (.Write t vw)).1 (.Read t vr)).1.nodes.length
      = s.g.nodes.length + 2 := by
    simp [addNode]
  have hext2 : NodesExt s.g (addNode (addNode s.g (.Write t vw)).1 (.Read t vr)).1 :=
    nodesExt_trans (addNode_ext s.g _) (addNode_ext _ _)
  have hwf2 : GraphWF (addNode (addNode s.g (.Write t vw)).1 (.Read t vr)).1 :=
    addNode_wf (addNode_wf hwf)
  have hnodes3 := connectPrevious_nodes
    (addNode (addNode s.g (.Write t vw)).1 (.Read t vr)).1 s.last
    (addNode s.g (.Write t vw)).2
  have hwf3 : GraphWF (connectPrevious
      (addNode (addNode s.g (.Write t vw)).1 (.Read t vr)).1 s.last
      (addNode s.g (.Write t vw)).2) := by
    refine connectPrevious_wf hwf2 ?_ ?_
    · intro n hn
      have := hlast n hn
      omega
    · omega
  have hlen3 : (connectPrevious
      (addNode (addNode s.g (.Write t vw)).1 (.Read t vr)).1 s.last
      (addNode s.g (.Write t vw)).2).nodes.length = s.g.nodes.length + 2 := by
    rw [hnodes3]
    omega
  have hwf4 : GraphWF (updateEdge (connectPrevious
      (addNode (addNode s.g (.Write t vw)).1 (.Read t vr)).1 s.last
      (addNode s.g (.Write t vw)).2)
      (addNode (addNode s.g (.Write t vw)).1 (.Read t vr)).2
      (addNode s.g (.Write t vw)).2 .ProgramOrder) := by
    refine updateEdge_wf hwf3 (by omega) (by omega) (by omega)
  have hnodes4 := updateEdge_nodes (connectPrevious
      (addNode (addNode s.g (.Write t vw)).1 (.Read t vr)).1 s.last
      (addNode s.g (.Write t vw)).2)
      (addNode (addNode s.g (.Write t vw)).1 (.Read t vr)).2
      (addNode s.g (.Write t vw)).2 .ProgramOrder
  have hext4 : NodesExt s.g (updateEdge (connectPrevious
      (addNode (addNode s.g (.Write t vw)).1 (.Read t vr)).1 s.last
      (addNode s.g (.Write t vw)).2)
      (addNode (addNode s.g (.Write t vw)).1 (.Read t vr)).2
      (addNode s.g (.Write t vw)).2 .ProgramOrder) :=
    nodesExt_trans hext2 (nodesExt_trans (nodesExt_of_nodes_eq hnodes3) (nodesExt_of_nodes_eq hnodes4))
  have hlen4 : (updateEdge (connectPrevious
      (addNode (addNode s.g (.Write t vw)).1 (.Read t vr)).1 s.last
      (addNode s.g (.Write t vw)).2)
      (addNode (addNode s.g (.Write t vw)).1 (.Read t vr)).2
      (addNode s.g (.Write t vw)).2 .ProgramOrder).nodes.length
      = s.g.nodes.length + 2 := by
    rw [hnodes4]
    omega
  have hpo4 : AllPo (updateEdge (connectPrevious
      (addNode (addNode s.g (.Write t vw)).1 (.Read t vr)).1 s.last
      (addNode s.g (.Write t vw)).2)
      (addNode (addNode s.g (.Write t vw)).1 (.Read t vr)).2
      (addNode s.g (.Write t vw)).2 .ProgramOrder) :=
    updateEdge_allpo (connectPrevious_allpo (addNode_allpo (addNode_allpo hpo)))
  have hnodeW : nodeAt (updateEdge (connectPrevious
      (addNode (addNode s.g (.Write t vw)).1 (.Read t vr)).1 s.last
      (addNode s.g (.Write t vw)).2)
      (addNode (addNode s.g (.Write t vw)).1 (.Read t vr)).2
      (addNode s.g (.Write t vw)).2 .ProgramOrder) s.g.nodes.length
      = some (.Write t vw) := by
    refine nodeAt_ext (nodesExt_trans (nodesExt_of_nodes_eq hnodes3)
      (nodesExt_of_nodes_eq hnodes4)) ?_
    exact nodeAt_ext (addNode_ext _ _) (addNode_nodeAt_new s.g _)
  have hnodeR : nodeAt (updateEdge (connectPrevious
      (addNode (addNode s.g (.Write t vw)).1 (.Read t vr)).1 s.last
      (addNode s.g (.Write t vw)).2)
      (addNode (addNode s.g (.Write t vw)).1 (.Read t vr)).2
      (addNode s.g (.Write t vw)).2 .ProgramOrder)
      (addNode s.g (.Write t vw)).1.nodes.length = some (.Read t vr) := by
    refine nodeAt_ext (nodesExt_trans (nodesExt_of_nodes_eq hnodes3)
      (nodesExt_of_nodes_eq hnodes4)) ?_
    exact addNode_nodeAt_new _ _
  have h3 : lo ≤ (updateEdge (connectPrevious
      (addNode (addNode s.g (.Write t vw)).1 (.Read t vr)).1 s.last
      (addNode s.g (.Write t vw)).2)
      (addNode (addNode s.g (.Write t vw)).1 (.Read t vr)).2
      (addNode s.g (.Write t vw)).2 .ProgramOrder).nodes.length := by omega
  have h4 : ∀ n ∈ [(addNode s.g (.Write t vw)).2], n < (updateEdge (connectPrevious
      (addNode (addNode s.g (.Write t vw)).1 (.Read t vr)).1 s.last
      (addNode s.g (.Write t vw)).2)
      (addNode (addNode s.g (.Write t vw)).1 (.Read t vr)).2
      (addNode s.g (.Write t vw)).2 .ProgramOrder).nodes.length := by
    intro n hn
    rw [List.mem_singleton] at hn
    subst hn
    omega
  have h5 : ReadsOk lo t (updateEdge (connectPrevious
      (addNode (addNode s.g (.Write t vw)).1 (.Read t vr)).1 s.last
      (addNode s.g (.Write t vw)).2)
      (addNode (addNode s.g (.Write t vw)).1 (.Read t vr)).2
      (addNode s.g (.Write t vw)).2 .ProgramOrder)
      (s.reads ++ [(addNode (addNode s.g (.Write t vw)).1 (.Read t vr)).2]) := by
    intro n hn
    rcases List.mem_append.mp hn with hh | hh
    · exact (readsOk_ext hrd hext4) n hh
    · rw [List.mem_singleton] at hh
      subst hh
      refine ⟨by omega, by omega, vr, ?_⟩
      rw [hidxR]
      exact hnodeR
  have h6 : WritesOk lo t (updateEdge (connectPrevious
      (addNode (addNode s.g (.Write t vw)).1 (.Read t vr)).1 s.last
      (addNode s.g (.Write t vw)).2)
      (addNode (addNode s.g (.Write t vw)).1 (.Read t vr)).2
      (addNode s.g (.Write t vw)).2 .ProgramOrder)
      (s.writes ++ [(addNode s.g (.Write t vw)).2]) := by
    intro n hn
    rcases List.mem_append.mp hn with hh | hh
    · exact (writesOk_ext hwr hext4) n hh
    · rw [List.mem_singleton] at hh
      subst hh
      refine ⟨by omega, by omega, vw, ?_⟩
      rw [hidxL]
      exact hnodeW
  have hfo : FirstOk (updateEdge (connectPrevious
      (addNode (addNode s.g (.Write t vw)).1 (.Read t vr)).1 s.last
      (addNode s.g (.Write t vw)).2)
      (addNode (addNode s.g (.Write t vw)).1 (.Read t vr)).2
      (addNode s.g (.Write t vw)).2 .ProgramOrder)
      (some [(addNode s.g (.Write t vw)).2]) := by
    intro l hl n hn
    rw [Option.some_inj] at hl
    subst hl
    rw [List.mem_singleton] at hn
    subst hn
    omega
  exact ⟨BOk_intro hwf4 hpo4 h3 h4 h5 h6, hext4, hfo⟩

theorem handleStatement_If (globals : List Name) (t : ThreadId) (s : BuildSt)
    (cond : CondExpr) (thn els : StmtList) :
    handleStatement globals t s (.If cond thn els) =
    ifCont globals t s thn els
      (branchBack (handleCondition globals t s.g [] cond).1 s.last
        (handleCondition globals t s.g [] cond).2.head?)
      (branchLast s.last (handleCondition globals t s.g [] cond).2.getLast?)
      (s.reads ++ (handleCondition globals t s.g [] cond).2)
      ((handleCondition globals t s.g [] cond).2.head?.map (fun r => [r])) := rfl

theorem handleStatement_While (globals : List Name) (t : ThreadId) (s : BuildSt)
    (cond : CondExpr) (body : StmtList) :
    handleStatement globals t s (.While cond body) =
    whileCont globals t s cond body
      (branchBack (handleCondition globals t s.g [] cond).1 s.last
        (handleCondition globals t s.g [] cond).2.head?)
      (branchLast s.last (handleCondition globals t s.g [] cond).2.getLast?)
      (s.reads ++ (handleCondition globals t s.g [] cond).2)
      ((handleCondition globals t s.g [] cond).2.head?) := rfl

theorem matchConnect_ok {g1 : Aeg} {last : List Nat} {o : Option Nat}
    (hwf : GraphWF g1) (hpo : AllPo g1)
    (hlast : ∀ n ∈ last, n < g1.nodes.length)
    (ho : ∀ n, o = some n → n < g1.nodes.length) :
    GraphWF (branchBack g1 last o) ∧ AllPo (branchBack g1 last o) ∧
    (branchBack g1 last o).nodes = g1.nodes := by
  cases o with
  | none => exact ⟨hwf, hpo, rfl⟩
  | some r0 =>
    exact ⟨connectPrevious_wf hwf hlast (ho r0 rfl),
      connectPrevious_allpo hpo, connectPrevious_nodes g1 last r0⟩

theorem branchLast_bound {sLast : List Nat} {o : Option Nat} {hi : Nat}
    (hs : ∀ n ∈ sLast, n < hi) (ho : ∀ n, o = some n → n < hi) :
    ∀ n ∈ branchLast sLast o, n < hi := by
  cases o with
  | none => exact hs
  | some r0 =>
    intro n hn
    rw [branchLast, List.mem_singleton] at hn
    subst hn
    exact ho n rfl

theorem branchLast_mem {sLast : List Nat} {o : Option Nat} {n : Nat}
    (hn : n ∈ branchLast sLast o) : o = some n ∨ n ∈ sLast := by
  cases o with
  | none => exact Or.inr hn
  | some r0 =>
    rw [branchLast, List.mem_singleton] at hn
    subst hn
    exact Or.inl rfl

theorem firstOk_headMap {g : Aeg} {o : Option Nat}
    (h : ∀ n, o = some n → n < g.nodes.length) :
    FirstOk g (o.map (fun r => [r])) := by
  cases o with
  | none => exact firstOk_none
  | some r0 =>
    intro l hl n hn
    rw [Option.map_some', Option.some_inj] at hl
    subst hl
    rw [List.mem_singleton] at hn
    subst hn
    exact h n rfl

theorem foldConnect_ok (fb last : List Nat) (g : Aeg)
    (hwf : GraphWF g) (hpo : AllPo g)
    (hlast : ∀ n ∈ last, n < g.nodes.length)
    (hfb : ∀ n ∈ fb, n < g.nodes.length) :
    GraphWF (fb.foldl (fun g n => connectPrevious g last n) g) ∧
    AllPo (fb.foldl (fun g n => connectPrevious g last n) g) ∧
    (fb.foldl (fun g n => connectPrevious g last n) g).nodes = g.nodes := by
  refine foldl_inv
    (P := fun g2 => GraphWF g2 ∧ AllPo g2 ∧ g2.nodes = g.nodes) fb g
    ⟨hwf, hpo, rfl⟩ ?_
  intro n hn g2 hg2
  obtain ⟨hw2, hp2, hn2⟩ := hg2
  refine ⟨?_, connectPrevious_allpo hp2, ?_⟩
  · refine connectPrevious_wf hw2 ?_ ?_
    · intro m hm
      rw [hn2]
      exact hlast m hm
    · rw [hn2]
      exact hfb n hn
  · rw [connectPrevious_nodes, hn2]

theorem ifCont_ok {globals : List Name} {t : ThreadId} {lo : Nat}
    {thn els : StmtList} {s0 : BuildSt} {g2 : Aeg} {condLast reads1 : List Nat}
    {first : Option (List Nat)} {r : BuildSt × Option (List Nat)}
    (IH1 : ∀ (s : BuildSt) (facc : Option (List Nat))
      (r2 : BuildSt × Option (List Nat)), BOk lo t s → FirstOk s.g facc →
      handleStmts globals t s facc thn = some r2 →
      BOk lo t r2.1 ∧ NodesExt s.g r2.1.g ∧ FirstOk r2.1.g r2.2)
    (IH2 : ∀ (s : BuildSt) (facc : Option (List Nat))
      (r2 : BuildSt × Option (List Nat)), BOk lo t s → FirstOk s.g facc →
      handleStmts globals t s facc els = some r2 →
      BOk lo t r2.1 ∧ NodesExt s.g r2.1.g ∧ FirstOk r2.1.g r2.2)
    (hsome : ifCont globals t s0 thn els g2 condLast reads1 first = some r)
    (hwf2 : GraphWF g2) (hpo2 : AllPo g2) (hext2 : NodesExt s0.g g2)
    (hlo2 : lo ≤ g2.nodes.length)
    (hcl : ∀ n ∈ condLast, n < g2.nodes.length)
    (hrd1 : ReadsOk lo t g2 reads1)
    (hwr1 : WritesOk lo t g2 s0.writes)
    (hfirst : FirstOk g2 first) :
    BOk lo t r.1 ∧ NodesExt s0.g r.1.g ∧ FirstOk r.1.g r.2 := by
  unfold ifCont at hsome
  cases hthn : handleStmts globals t ⟨g2, condLast, reads1, s0.writes⟩ none thn with
  | none =>
    rw [hthn] at hsome
    cases hsome
  | some pThn =>
    rw [hthn] at hsome
    obtain ⟨sThn, firstThn⟩ := pThn
    simp only at hsome
    obtain ⟨hBThn, hextThn, hfThn⟩ := IH1 ⟨g2, condLast, reads1, s0.writes⟩ none
      (sThn, firstThn) (BOk_intro hwf2 hpo2 hlo2 hcl hrd1 hwr1) firstOk_none hthn
    obtain ⟨hwfT, hpoT, hloT, hlastT, hrdT, hwrT⟩ := hBThn
    have hextThn2 : NodesExt g2 sThn.g := hextThn
    cases hels : handleStmts globals t ⟨sThn.g, condLast, sThn.reads, sThn.writes⟩
        none els with
    | none =>
      rw [hels] at hsome
      cases hsome
    | some pEls =>
      rw [hels] at hsome
      obtain ⟨sEls, firstEls⟩ := pEls
      simp only at hsome
      have hclT : ∀ n ∈ condLast, n < sThn.g.nodes.length := by
        intro n hn
        exact Nat.lt_of_lt_of_le (hcl n hn) (nodesExt_len_le hextThn2)
      obtain ⟨hBEls, hextEls, hfEls⟩ := IH2 ⟨sThn.g, condLast, sThn.reads, sThn.writes⟩
        none (sEls, firstEls) (BOk_intro hwfT hpoT hloT hclT hrdT hwrT)
        firstOk_none hels
      obtain ⟨hwfE, hpoE, hloE, hlastE, hrdE, hwrE⟩ := hBEls
      have hextEls2 : NodesExt sThn.g sEls.g := hextEls
      rw [Option.some_inj] at hsome
      subst hsome
      have hlastFin : ∀ n ∈ (if ADD_SKIP_CONNECTION then
          mergeLast sThn.last sEls.last ++ condLast
          else mergeLast sThn.last sEls.last), n < sEls.g.nodes.length := by
        intro n hn
        rw [if_pos (by rw [ADD_SKIP_CONNECTION])] at hn
        rcases List.mem_append.mp hn with h2 | h2
        · rcases mergeFold_mem sThn.last sEls.last n h2 with h3 | h3
          · exact hlastE n h3
          · exact Nat.lt_of_lt_of_le (hlastT n h3) (nodesExt_len_le hextEls2)
        · exact Nat.lt_of_lt_of_le (hclT n h2) (nodesExt_len_le hextEls2)
      have hfOut : ∀ (fT fE : Option (List Nat)), FirstOk sThn.g fT →
          FirstOk sEls.g fE → FirstOk sEls.g (mergeFirst first fT fE) := by
        intro fT fE
        cases first with
        | some fl =>
          intro _ _
          have hout : mergeFirst (some fl) fT fE = some fl := by
            unfold mergeFirst
            rfl
          rw [hout]
          intro l hl n hn
          rw [Option.some_inj] at hl
          subst hl
          exact Nat.lt_of_lt_of_le (hfirst fl rfl n hn)
            (nodesExt_len_le (nodesExt_trans hextThn2 hextEls2))
        | none =>
          cases fT with
          | none =>
            intro _ hfE
            have hout : mergeFirst none none fE = fE := by
              unfold mergeFirst
              rfl
            rw [hout]
            exact hfE
          | some ft =>
            cases fE with
            | none =>
              intro hfT _
              have hout : mergeFirst none (some ft) none = some (ft ++ []) := by
                unfold mergeFirst
                rfl
              rw [hout]
              intro l hl n hn
              rw [Option.some_inj] at hl
              subst hl
              rw [List.append_nil] at hn
              exact Nat.lt_of_lt_of_le (hfT ft rfl n hn) (nodesExt_len_le hextEls2)
            | some fe =>
              intro hfT hfE
              have hout : mergeFirst none (some ft) (some fe)
                  = some (ft ++ fe) := by
                unfold mergeFirst
                rfl
              rw [hout]
              intro l hl n hn
              rw [Option.some_inj] at hl
              subst hl
              rcases List.mem_append.mp hn with h2 | h2
              · exact Nat.lt_of_lt_of_le (hfT ft rfl n h2) (nodesExt_len_le hextEls2)
              · exact hfE fe rfl n h2
      exact ⟨BOk_intro hwfE hpoE hloE hlastFin hrdE hwrE,
        nodesExt_trans hext2 (nodesExt_trans hextThn2 hextEls2), hfOut firstThn firstEls hfThn hfEls⟩

theorem whileCont_ok {globals : List Name} {t : ThreadId} {lo : Nat}
    {cond : CondExpr} {body : StmtList} {s0 : BuildSt} {g2 : Aeg}
    {last1 reads1 : List Nat} {firstCond : Option Nat}
    {r : BuildSt × Option (List Nat)}
    (IH : ∀ (s : BuildSt) (facc : Option (List Nat))
      (r2 : BuildSt × Option (List Nat)), BOk lo t s → FirstOk s.g facc →
      handleStmts globals t s facc body = some r2 →
      BOk lo t r2.1 ∧ NodesExt s.g r2.1.g ∧ FirstOk r2.1.g r2.2)
    (hsome : whileCont globals t s0 cond body g2 last1 reads1 firstCond = some r)
    (hwf2 : GraphWF g2) (hpo2 : AllPo g2) (hext2 : NodesExt s0.g g2)
    (hlo2 : lo ≤ g2.nodes.length)
    (hl1 : ∀ n ∈ last1, n < g2.nodes.length)
    (hrd1 : ReadsOk lo t g2 reads1)
    (hwr1 : WritesOk lo t g2 s0.writes)
    (hfc : ∀ n, firstCond = some n → n < g2.nodes.length) :
    BOk lo t r.1 ∧ NodesExt s0.g r.1.g ∧ FirstOk r.1.g r.2 := by
  unfold whileCont at hsome
  cases hbody : handleStmts globals t ⟨g2, last1, reads1, s0.writes⟩ none body with
  | none =>
    rw [hbody] at hsome
    cases hsome
  | some pB =>
    rw [hbody] at hsome
    obtain ⟨sBody, firstBody⟩ := pB
    simp only at hsome
    obtain ⟨hBB, hextB, hfB⟩ := IH ⟨g2, last1, reads1, s0.writes⟩ none
      (sBody, firstBody) (BOk_intro hwf2 hpo2 hlo2 hl1 hrd1 hwr1)
      firstOk_none hbody
    obtain ⟨hwfB, hpoB, hloB, hlastB, hrdB, hwrB⟩ := hBB
    have hextB2 : NodesExt g2 sBody.g := hextB
    have hl1B : ∀ n ∈ last1, n < sBody.g.nodes.length := by
      intro n hn
      exact Nat.lt_of_lt_of_le (hl1 n hn) (nodesExt_len_le hextB2)
    cases firstCond with
    | some fc =>
      have hfc2 : fc < sBody.g.nodes.length :=
        Nat.lt_of_lt_of_le (hfc fc rfl) (nodesExt_len_le hextB2)
      cases firstBody with
      | none =>
        simp only at hsome
        rw [Option.some_inj] at hsome
        subst hsome
        have hwf3 := connectPrevious_wf hwfB hlastB hfc2
        have hnodes3 := connectPrevious_nodes sBody.g sBody.last fc
        have hext3 := nodesExt_of_nodes_eq hnodes3
        refine ⟨BOk_intro hwf3 (connectPrevious_allpo hpoB) ?_ ?_
          (readsOk_ext hrdB hext3) (writesOk_ext hwrB hext3),
          nodesExt_trans hext2 (nodesExt_trans hextB2 hext3), ?_⟩
        · rw [hnodes3]
          exact hloB
        · intro n hn
          rw [hnodes3]
          exact hlastB n hn
        · intro l hl n hn
          rw [Option.some_inj] at hl
          subst hl
          rw [List.mem_singleton] at hn
          subst hn
          rw [hnodes3]
          exact hfc2
      | some fb =>
        obtain ⟨hc1, hc2, hc3, hc4⟩ := handleCondition_ok globals t lo cond
          sBody.g [] hwfB hpoB hloB (fun n hn => absurd hn (List.not_mem_nil n))
        simp only at hsome
        cases hgl : (handleCondition globals t sBody.g [] cond).2.getLast? with
        | none =>
          rw [hgl] at hsome
          cases hsome
        | some lastRead =>
          rw [hgl] at hsome
          simp only at hsome
          rw [Option.some_inj] at hsome
          subst hsome
          have hlrMem : lastRead ∈ (handleCondition globals t sBody.g [] cond).2 :=
            List.mem_of_getLast?_eq_some hgl
          have hlrLt : lastRead <
              (handleCondition globals t sBody.g [] cond).1.nodes.length :=
            (hc4 lastRead hlrMem).2.1
          have hlastB3 : ∀ n ∈ sBody.last,
              n < (handleCondition globals t sBody.g [] cond).1.nodes.length := by
            intro n hn
            exact Nat.lt_of_lt_of_le (hlastB n hn) (nodesExt_len_le hc3)
          have hhead : ∀ n,
              (handleCondition globals t sBody.g [] cond).2.head? = some n →
              n < (handleCondition globals t sBody.g [] cond).1.nodes.length := by
            intro n hn
            exact (hc4 n (head?_mem hn)).2.1
          obtain ⟨hwf4, hpo4, hnodes4⟩ := matchConnect_ok hc1 hc2 hlastB3 hhead
          have hlen4 : (branchBack (handleCondition globals t sBody.g [] cond).1
              sBody.last (handleCondition globals t sBody.g [] cond).2.head?).nodes.length
              = (handleCondition globals t sBody.g [] cond).1.nodes.length := by
            rw [hnodes4]
          have hside1 : ∀ n ∈ [lastRead],
              n < (branchBack (handleCondition globals t sBody.g [] cond).1
                sBody.last
                (handleCondition globals t sBody.g [] cond).2.head?).nodes.length := by
            intro n hn
            rw [List.mem_singleton] at hn
            subst hn
            rw [hlen4]
            exact hlrLt
          have hside2 : ∀ n ∈ fb,
              n < (branchBack (handleCondition globals t sBody.g [] cond).1
                sBody.last
                (handleCondition globals t sBody.g [] cond).2.head?).nodes.length := by
            intro n hn
            rw [hlen4]
            exact Nat.lt_of_lt_of_le (hfB fb rfl n hn) (nodesExt_len_le hc3)
          obtain ⟨hwf5, hpo5, hnodes5⟩ := foldConnect_ok fb [lastRead]
            (branchBack (handleCondition globals t sBody.g [] cond).1
              sBody.last (handleCondition globals t sBody.g [] cond).2.head?)
            hwf4 hpo4 hside1 hside2
          have hlen5 : (fb.foldl (fun g n => connectPrevious g [lastRead] n)
              (branchBack (handleCondition globals t sBody.g [] cond).1
                sBody.last
                (handleCondition globals t sBody.g [] cond).2.head?)).nodes.length
              = (handleCondition globals t sBody.g [] cond).1.nodes.length := by
            rw [hnodes5, hnodes4]
          have hext45 : NodesExt sBody.g
              (fb.foldl (fun g n => connectPrevious g [lastRead] n)
                (branchBack (handleCondition globals t sBody.g [] cond).1
                  sBody.last
                  (handleCondition globals t sBody.g [] cond).2.head?)) :=
            nodesExt_trans hc3 (nodesExt_trans (nodesExt_of_nodes_eq hnodes4)
              (nodesExt_of_nodes_eq hnodes5))
          refine ⟨BOk_intro hwf5 hpo5 ?_ ?_ (readsOk_ext hrdB hext45) (writesOk_ext hwrB hext45),
            nodesExt_trans hext2 (nodesExt_trans hextB2 hext45), ?_⟩
          · rw [hlen5]
            exact Nat.le_trans hloB (nodesExt_len_le hc3)
          · intro n hn
            rcases List.mem_append.mp hn with h2 | h2
            · rw [hlen5]
              exact Nat.lt_of_lt_of_le (hl1B n h2) (nodesExt_len_le hc3)
            · rw [List.mem_singleton] at h2
              subst h2
              rw [hlen5]
              exact hlrLt
          · intro l hl n hn
            rw [Option.some_inj] at hl
            subst hl
            rw [List.mem_singleton] at hn
            subst hn
            exact Nat.lt_of_lt_of_le hfc2 (nodesExt_len_le hext45)
    | none =>
      cases firstBody with
      | none =>
        simp only at hsome
        rw [Option.some_inj] at hsome
        subst hsome
        exact ⟨BOk_intro hwfB hpoB hloB hlastB hrdB hwrB,
          nodesExt_trans hext2 hextB2, firstOk_none⟩
      | some fb =>
        simp only at hsome
        rw [Option.some_inj] at hsome
        subst hsome
        obtain ⟨hwf3, hpo3, hnodes3⟩ := foldConnect_ok fb sBody.last sBody.g
          hwfB hpoB hlastB (fun n hn => hfB fb rfl n hn)
        have hext3 := nodesExt_of_nodes_eq hnodes3
        refine ⟨BOk_intro hwf3 hpo3 ?_ ?_ (readsOk_ext hrdB hext3) (writesOk_ext hwrB hext3),
          nodesExt_trans hext2 (nodesExt_trans hextB2 hext3), ?_⟩
        · rw [hnodes3]
          exact hloB
        · intro n hn
          rcases List.mem_append.mp hn with h2 | h2
          · rw [hnodes3]
            exact hlastB n h2
          · rw [hnodes3]
            exact hl1B n h2
        · intro l hl n hn
          rw [Option.some_inj] at hl
          subst hl
          rw [hnodes3]
          exact hfB fb rfl n hn

mutual

theorem handleStatement_ok (globals : List Name) (t : ThreadId) (lo : Nat)
    (stmt : Statement) :
    ∀ (s : BuildSt) (r : BuildSt × Option (List Nat)),
    BOk lo t s → handleStatement globals t s stmt = some r →
    BOk lo t r.1 ∧ NodesExt s.g r.1.g ∧ FirstOk r.1.g r.2 := by
  cases stmt with
  | Assign v e =>
    cases e with
    | Num k =>
      intro s r hB hsome
      simp only [handleStatement] at hsome
      by_cases hv : v ∈ globals
      · rw [if_pos hv] at hsome
        have hsome2 : some ((⟨connectPrevious (addNode s.g (.Write t v)).1 s.last
            (addNode s.g (.Write t v)).2, [(addNode s.g (.Write t v)).2], s.reads,
            s.writes ++ [(addNode s.g (.Write t v)).2]⟩ : BuildSt),
            some [(addNode s.g (.Write t v)).2]) = some r := hsome
        rw [Option.some_inj] at hsome2
        subst hsome2
        exact writeOnly_ok v hB _ _ rfl rfl
      · rw [if_neg hv] at hsome
        rw [Option.some_inj] at hsome
        subst hsome
        exact ⟨hB, nodesExt_rfl, firstOk_none⟩
    | Var vr =>
      intro s r hB hsome
      simp only [handleStatement] at hsome
      by_cases hw : v ∈ globals
      · by_cases hr2 : vr ∈ globals
        · rw [if_pos ⟨hw, hr2⟩] at hsome
          have hsome2 : some ((⟨updateEdge (connectPrevious
              (addNode (addNode s.g (.Write t v)).1 (.Read t vr)).1 s.last
              (addNode s.g (.Write t v)).2)
              (addNode (addNode s.g (.Write t v)).1 (.Read t vr)).2
              (addNode s.g (.Write t v)).2 .ProgramOrder,
              [(addNode s.g (.Write t v)).2],
              s.reads ++ [(addNode (addNode s.g (.Write t v)).1 (.Read t vr)).2],
              s.writes ++ [(addNode s.g (.Write t v)).2]⟩ : BuildSt),
              some [(addNode s.g (.Write t v)).2]) = some r := hsome
          rw [Option.some_inj] at hsome2
          subst hsome2
          exact assignVar_ok v vr hB _ _ _ _ _ _ rfl rfl rfl rfl rfl rfl
        · rw [if_neg (fun h => hr2 h.2), if_pos hw] at hsome
          have hsome2 : some ((⟨connectPrevious (addNode s.g (.Write t v)).1
              s.last (addNode s.g (.Write t v)).2,
              [(addNode s.g (.Write t v)).2], s.reads,
              s.writes ++ [(addNode s.g (.Write t v)).2]⟩ : BuildSt),
              some [(addNode s.g (.Write t v)).2]) = some r := hsome
          rw [Option.some_inj] at hsome2
          subst hsome2
          exact writeOnly_ok v hB _ _ rfl rfl
      · rw [if_neg (fun h => hw h.1), if_neg hw] at hsome
        by_cases hr2 : vr ∈ globals
        · rw [if_pos hr2] at hsome
          have hsome2 : some ((⟨connectPrevious (addNode s.g (.Read t vr)).1
              s.last (addNode s.g (.Read t vr)).2,
              [(addNode s.g (.Read t vr)).2],
              s.reads ++ [(addNode s.g (.Read t vr)).2], s.writes⟩ : BuildSt),
              some [(addNode s.g (.Read t vr)).2]) = some r := hsome
          rw [Option.some_inj] at hsome2
          subst hsome2
          exact readOnly_ok vr hB _ _ rfl rfl
        · rw [if_neg hr2] at hsome
          rw [Option.some_inj] at hsome
          subst hsome
          exact ⟨hB, nodesExt_rfl, firstOk_none⟩
  | Modify v e =>
    cases e with
    | Num k =>
      intro s r hB hsome
      simp only [handleStatement] at hsome
      by_cases hv : v ∈ globals
      · rw [if_pos hv] at hsome
        have hsome2 : some ((⟨connectPrevious (addNode s.g (.Write t v)).1 s.last
            (addNode s.g (.Write t v)).2, [(addNode s.g (.Write t v)).2], s.reads,
            s.writes ++ [(addNode s.g (.Write t v)).2]⟩ : BuildSt),
            some [(addNode s.g (.Write t v)).2]) = some r := hsome
        rw [Option.some_inj] at hsome2
        subst hsome2
        exact writeOnly_ok v hB _ _ rfl rfl
      · rw [if_neg hv] at hsome
        rw [Option.some_inj] at hsome
        subst hsome
        exact ⟨hB, nodesExt_rfl, firstOk_none⟩
    | Var vr =>
      intro s r hB hsome
      simp only [handleStatement] at hsome
      by_cases hw : v ∈ globals
      · by_cases hr2 : vr ∈ globals
        · rw [if_pos ⟨hw, hr2⟩] at hsome
          have hsome2 : some ((⟨updateEdge (connectPrevious
              (addNode (addNode s.g (.Write t v)).1 (.Read t vr)).1 s.last
              (addNode s.g (.Write t v)).2)
              (addNode (addNode s.g (.Write t v)).1 (.Read t vr)).2
              (addNode s.g (.Write t v)).2 .ProgramOrder,
              [(addNode s.g (.Write t v)).2],
              s.reads ++ [(addNode (addNode s.g (.Write t v)).1 (.Read t vr)).2],
              s.writes ++ [(addNode s.g (.Write t v)).2]⟩ : BuildSt),
              some [(addNode s.g (.Write t v)).2]) = some r := hsome
          rw [Option.some_inj] at hsome2
          subst hsome2
          exact assignVar_ok v vr hB _ _ _ _ _ _ rfl rfl rfl rfl rfl rfl
        · rw [if_neg (fun h => hr2 h.2), if_pos hw] at hsome
          have hsome2 : some ((⟨connectPrevious (addNode s.g (.Write t v)).1
              s.last (addNode s.g (.Write t v)).2,
              [(addNode s.g (.Write t v)).2], s.reads,
              s.writes ++ [(addNode s.g (.Write t v)).2]⟩ : BuildSt),
              some [(addNode s.g (.Write t v)).2]) = some r := hsome
          rw [Option.some_inj] at hsome2
          subst hsome2
          exact writeOnly_ok v hB _ _ rfl rfl
      · rw [if_neg (fun h => hw h.1), if_neg hw] at hsome
        by_cases hr2 : vr ∈ globals
        · rw [if_pos hr2] at hsome
          have hsome2 : some ((⟨connectPrevious (addNode s.g (.Read t vr)).1
              s.last (addNode s.g (.Read t vr)).2,
              [(addNode s.g (.Read t vr)).2],
              s.reads ++ [(addNode s.g (.Read t vr)).2], s.writes⟩ : BuildSt),
              some [(addNode s.g (.Read t vr)).2]) = some r := hsome
          rw [Option.some_inj] at hsome2
          subst hsome2
          exact readOnly_ok vr hB _ _ rfl rfl
        · rw [if_neg hr2] at hsome
          rw [Option.some_inj] at hsome
          subst hsome
          exact ⟨hB, nodesExt_rfl, firstOk_none⟩
  | Fence ft =>
    cases ft with
    | WR =>
      intro s r hB hsome
      simp only [handleStatement] at hsome
      have hsome2 : some ((⟨connectPrevious (addNode s.g (.Fence t .Full)).1
          s.last (addNode s.g (.Fence t .Full)).2,
          [(addNode s.g (.Fence t .Full)).2], s.reads, s.writes⟩ : BuildSt),
          some [(addNode s.g (.Fence t .Full)).2]) = some r := hsome
      rw [Option.some_inj] at hsome2
      subst hsome2
      exact fenceStep_ok hB _ _ rfl rfl
    | WW =>
      intro s r hB hsome
      simp only [handleStatement] at hsome
      cases hsome
    | RW =>
      intro s r hB hsome
      simp only [handleStatement] at hsome
      cases hsome
    | RR =>
      intro s r hB hsome
      simp only [handleStatement] at hsome
      cases hsome
  | If cond thn els =>
    intro s r hB hsome
    rw [handleStatement_If] at hsome
    obtain ⟨hwf, hpo, hlo, hlast, hrd, hwr⟩ := hB
    obtain ⟨h1, h2, h3, h4⟩ := handleCondition_ok globals t lo cond s.g []
      hwf hpo hlo (fun n hn => absurd hn (List.not_mem_nil n))
    have hlastG1 : ∀ n ∈ s.last,
        n < (handleCondition globals t s.g [] cond).1.nodes.length := by
      intro n hn
      exact Nat.lt_of_lt_of_le (hlast n hn) (nodesExt_len_le h3)
    have hheadG1 : ∀ n, (handleCondition globals t s.g [] cond).2.head? = some n →
        n < (handleCondition globals t s.g [] cond).1.nodes.length := by
      intro n hn
      exact (h4 n (head?_mem hn)).2.1
    obtain ⟨hwfM, hpoM, hnodesM⟩ := matchConnect_ok h1 h2 hlastG1 hheadG1
    have hlenM : (branchBack (handleCondition globals t s.g [] cond).1 s.last
        (handleCondition globals t s.g [] cond).2.head?).nodes.length
        = (handleCondition globals t s.g [] cond).1.nodes.length := by
      rw [hnodesM]
    have hextM : NodesExt s.g (branchBack (handleCondition globals t s.g [] cond).1
        s.last (handleCondition globals t s.g [] cond).2.head?) :=
      nodesExt_trans h3 (nodesExt_of_nodes_eq hnodesM)
    refine ifCont_ok (handleStmts_ok globals t lo thn)
      (handleStmts_ok globals t lo els) hsome hwfM hpoM hextM ?_ ?_ ?_
      (writesOk_ext hwr hextM) ?_
    · rw [hlenM]
      exact Nat.le_trans hlo (nodesExt_len_le h3)
    · refine branchLast_bound ?_ ?_
      · intro n hn
        rw [hlenM]
        exact hlastG1 n hn
      · intro n hn
        rw [hlenM]
        exact (h4 n (List.mem_of_getLast?_eq_some hn)).2.1
    · intro n hn
      rcases List.mem_append.mp hn with hh | hh
      · exact (readsOk_ext hrd hextM) n hh
      · exact (readsOk_ext h4 (nodesExt_of_nodes_eq hnodesM)) n hh
    · refine firstOk_headMap ?_
      intro n hn
      rw [hlenM]
      exact hheadG1 n hn
  | While cond body =>
    intro s r hB hsome
    rw [handleStatement_While] at hsome
    obtain ⟨hwf, hpo, hlo, hlast, hrd, hwr⟩ := hB
    obtain ⟨h1, h2, h3, h4⟩ := handleCondition_ok globals t lo cond s.g []
      hwf hpo hlo (fun n hn => absurd hn (List.not_mem_nil n))
    have hlastG1 : ∀ n ∈ s.last,
        n < (handleCondition globals t s.g [] cond).1.nodes.length := by
      intro n hn
      exact Nat.lt_of_lt_of_le (hlast n hn) (nodesExt_len_le h3)
    have hheadG1 : ∀ n, (handleCondition globals t s.g [] cond).2.head? = some n →
        n < (handleCondition globals t s.g [] cond).1.nodes.length := by
      intro n hn
      exact (h4 n (head?_mem hn)).2.1
    obtain ⟨hwfM, hpoM, hnodesM⟩ := matchConnect_ok h1 h2 hlastG1 hheadG1
    have hlenM : (branchBack (handleCondition globals t s.g [] cond).1 s.last
        (handleCondition globals t s.g [] cond).2.head?).nodes.length
        = (handleCondition globals t s.g [] cond).1.nodes.length := by
      rw [hnodesM]
    have hextM : NodesExt s.g (branchBack (handleCondition globals t s.g [] cond).1
        s.last (handleCondition globals t s.g [] cond).2.head?) :=
      nodesExt_trans h3 (nodesExt_of_nodes_eq hnodesM)
    refine whileCont_ok (handleStmts_ok globals t lo body) hsome hwfM hpoM
      hextM ?_ ?_ ?_ (writesOk_ext hwr hextM) ?_
    · rw [hlenM]
      exact Nat.le_trans hlo (nodesExt_len_le h3)
    · refine branchLast_bound ?_ ?_
      · intro n hn
        rw [hlenM]
        exact hlastG1 n hn
      · intro n hn
        rw [hlenM]
        exact (h4 n (List.mem_of_getLast?_eq_some hn)).2.1
    · intro n hn
      rcases List.mem_append.mp hn with hh | hh
      · exact (readsOk_ext hrd hextM) n hh
      · exact (readsOk_ext h4 (nodesExt_of_nodes_eq hnodesM)) n hh
    · intro n hn
      rw [hlenM]
      exact hheadG1 n hn

theorem handleStmts_ok (globals : List Name) (t : ThreadId) (lo : Nat)
    (ss : StmtList) :
    ∀ (s : BuildSt) (facc : Option (List Nat)) (r : BuildSt × Option (List Nat)),
    BOk lo t s → FirstOk s.g facc →
    handleStmts globals t s facc ss = some r →
    BOk lo t r.1 ∧ NodesExt s.g r.1.g ∧ FirstOk r.1.g r.2 := by
  cases ss with
  | nil =>
    intro s facc r hB hf hsome
    simp only [handleStmts] at hsome
    rw [Option.some_inj] at hsome
    subst hsome
    exact ⟨hB, nodesExt_rfl, hf⟩
  | cons stmt rest =>
    intro s facc r hB hf hsome
    simp only [handleStmts] at hsome
    cases hst : handleStatement globals t s stmt with
    | none =>
      rw [hst] at hsome
      cases hsome
    | some p =>
      rw [hst] at hsome
      obtain ⟨s1, f1⟩ := p
      simp only at hsome
      obtain ⟨hB1, hext1, hf1⟩ := handleStatement_ok globals t lo stmt s (s1, f1)
        hB hst
      have hext1b : NodesExt s.g s1.g := hext1
      have hfacc2 : FirstOk s1.g (if facc.isNone then f1 else facc) := by
        cases facc with
        | none =>
          simp only [Option.isNone_none, if_true]
          exact hf1
        | some l =>
          simp only [Option.isNone_some, Bool.false_eq_true, if_false]
          exact firstOk_ext hf hext1b
      obtain ⟨hB2, hext2, hf2⟩ := handleStmts_ok globals t lo rest s1
        (if facc.isNone then f1 else facc) r hB1 hfacc2 hsome
      exact ⟨hB2, nodesExt_trans hext1b hext2, hf2⟩

end

theorem segsFrom_snoc {lo hi hi2 : Nat} {wn : ThreadNodes} :
    ∀ {tns : List ThreadNodes}, SegsFrom lo hi tns → lo ≤ hi → hi ≤ hi2 →
    (∀ n ∈ wn.1, hi ≤ n ∧ n < hi2) → (∀ n ∈ wn.2, hi ≤ n ∧ n < hi2) →
    SegsFrom lo hi2 (tns ++ [wn])
  | [], _, hlohi, hhi, hw1, hw2 => by
    refine ⟨hi2, Nat.le_trans hlohi hhi, Nat.le_refl _, ?_, ?_, trivial⟩
    · intro n hn
      have := hw1 n hn
      omega
    · intro n hn
      have := hw2 n hn
      omega
  | wn0 :: rest, hseg, hlohi, hhi, hw1, hw2 => by
    obtain ⟨mid, hm1, hm2, he1, he2, hrest⟩ := hseg
    exact ⟨mid, hm1, Nat.le_trans hm2 hhi, he1, he2,
      segsFrom_snoc hrest hm2 hhi hw1 hw2⟩

theorem segsFrom_lo_le {hi : Nat} :
    ∀ {tns : List ThreadNodes} {lo : Nat}, SegsFrom lo hi tns →
    ∀ (j : Nat) (wn : ThreadNodes), tns.get? j = some wn →
    ∀ m, (m ∈ wn.1 ∨ m ∈ wn.2) → lo ≤ m
  | [], _, _, j, wn, hj => by cases hj
  | wn0 :: rest, lo, hseg, j, wn, hj => by
    obtain ⟨mid, hm1, hm2, he1, he2, hrest⟩ := hseg
    cases j with
    | zero =>
      rw [List.get?_cons_zero, Option.some_inj] at hj
      subst hj
      intro m hm
      rcases hm with h | h
      · exact (he1 m h).1
      · exact (he2 m h).1
    | succ j2 =>
      rw [List.get?_cons_succ] at hj
      intro m hm
      exact Nat.le_trans hm1 (segsFrom_lo_le hrest j2 wn hj m hm)

theorem segsFrom_ub {hi : Nat} :
    ∀ {tns : List ThreadNodes} {lo : Nat}, SegsFrom lo hi tns →
    ∀ wn ∈ tns, ∀ m, (m ∈ wn.1 ∨ m ∈ wn.2) → m < hi
  | [], _, _, wn, hwn => by cases hwn
  | wn0 :: rest, lo, hseg, wn, hwn => by
    obtain ⟨mid, hm1, hm2, he1, he2, hrest⟩ := hseg
    rcases List.mem_cons.mp hwn with h | h
    · subst h
      intro m hm
      rcases hm with h2 | h2
      · exact Nat.lt_of_lt_of_le (he1 m h2).2 hm2
      · exact Nat.lt_of_lt_of_le (he2 m h2).2 hm2
    · exact segsFrom_ub hrest wn h

theorem segsFrom_lt {hi : Nat} :
    ∀ {tns : List ThreadNodes} {lo : Nat}, SegsFrom lo hi tns →
    ∀ (i j : Nat) (wni wnj : ThreadNodes), i < j →
    tns.get? i = some wni → tns.get? j = some wnj →
    ∀ n, (n ∈ wni.1 ∨ n ∈ wni.2) → ∀ m, (m ∈ wnj.1 ∨ m ∈ wnj.2) → n < m
  | [], _, _, i, j, wni, wnj, hij, hi2, _ => by cases hi2
  | wn0 :: rest, lo, hseg, i, j, wni, wnj, hij, hi2, hj2 => by
    obtain ⟨mid, hm1, hm2, he1, he2, hrest⟩ := hseg
    cases i with
    | zero =>
      rw [List.get?_cons_zero, Option.some_inj] at hi2
      subst hi2
      cases j with
      | zero => cases hij
      | succ j2 =>
        rw [List.get?_cons_succ] at hj2
        intro n hn m hm
        have hnm : n < mid := by
          rcases hn with h | h
          · exact (he1 n h).2
          · exact (he2 n h).2
        exact Nat.lt_of_lt_of_le hnm (segsFrom_lo_le hrest j2 wnj hj2 m hm)
    | succ i2 =>
      cases j with
      | zero => cases hij
      | succ j2 =>
        rw [List.get?_cons_succ] at hi2
        rw [List.get?_cons_succ] at hj2
        exact segsFrom_lt hrest i2 j2 wni wnj (by omega) hi2 hj2

theorem nodeAt_lt {g : Aeg} {n : Nat} {x : Node} (h : nodeAt g n = some x) :
    n < g.nodes.length := by
  unfold nodeAt at h
  by_contra hc
  rw [List.get?_eq_none.mpr (by omega)] at h
  cases h

theorem tnsOk_ext {g g2 : Aeg} {names : List Name} {tns : List ThreadNodes}
    (h : TnsOk g names tns) (hext : NodesExt g g2) : TnsOk g2 names tns := by
  refine List.Forall₂.imp ?_ h
  intro nm wn hw
  refine ⟨?_, ?_⟩
  · intro n hn
    obtain ⟨m, hm⟩ := hw.1 n hn
    exact ⟨m, nodeAt_ext hext hm⟩
  · intro n hn
    obtain ⟨m, hm⟩ := hw.2 n hn
    exact ⟨m, nodeAt_ext hext hm⟩

theorem tnsOk_get {g : Aeg} :
    ∀ {names : List Name} {tns : List ThreadNodes}, TnsOk g names tns →
    ∀ (i : Nat) (wn : ThreadNodes), tns.get? i = some wn →
    ∃ nm, names.get? i = some nm ∧
      (∀ n ∈ wn.1, ∃ m, nodeAt g n = some (.Write nm m)) ∧
      (∀ n ∈ wn.2, ∃ m, nodeAt g n = some (.Read nm m)) := by
  intro names tns h
  induction h with
  | nil =>
    intro i wn hw
    cases hw
  | cons ha hl ih =>
    intro i wn hw
    cases i with
    | zero =>
      rw [List.get?_cons_zero, Option.some_inj] at hw
      subst hw
      exact ⟨_, List.get?_cons_zero, ha.1, ha.2⟩
    | succ i2 =>
      rw [List.get?_cons_succ] at hw
      obtain ⟨nm, hnm, h1, h2⟩ := ih i2 wn hw
      exact ⟨nm, by rw [List.get?_cons_succ]; exact hnm, h1, h2⟩

theorem tnsOk_snoc {g : Aeg} {names : List Name} {tns : List ThreadNodes}
    {nm : Name} {wn : ThreadNodes} (h : TnsOk g names tns)
    (h1 : ∀ n ∈ wn.1, ∃ m, nodeAt g n = some (.Write nm m))
    (h2 : ∀ n ∈ wn.2, ∃ m, nodeAt g n = some (.Read nm m)) :
    TnsOk g (names ++ [nm]) (tns ++ [wn]) :=
  List.rel_append h (List.forall₂_cons.mpr ⟨⟨h1, h2⟩, List.Forall₂.nil⟩)

theorem threads_fold_ok (globals : List Name) :
    ∀ (ths : List Thread) (acc r : Aeg × List ThreadNodes) (names0 : List Name),
    GraphWF acc.1 → AllPo acc.1 → SegsFrom 0 acc.1.nodes.length acc.2 →
    TnsOk acc.1 names0 acc.2 →
    ths.foldlM (threadStep globals) acc = some r →
    GraphWF r.1 ∧ AllPo r.1 ∧ SegsFrom 0 r.1.nodes.length r.2 ∧
    TnsOk r.1 (names0 ++ ths.map Thread.name) r.2 ∧ NodesExt acc.1 r.1
  | [], acc, r, names0, hwf, hpo, hseg, htns, hfold => by
    have h2 : some acc = some r := hfold
    rw [Option.some_inj] at h2
    subst h2
    refine ⟨hwf, hpo, hseg, ?_, nodesExt_rfl⟩
    simpa using htns
  | th :: rest, acc, r, names0, hwf, hpo, hseg, htns, hfold => by
    have h2 : (threadStep globals acc th >>= fun acc2 =>
        rest.foldlM (threadStep globals) acc2) = some r := hfold
    cases hstep : threadStep globals acc th with
    | none =>
      rw [hstep] at h2
      cases h2
    | some acc1 =>
      rw [hstep] at h2
      have h3 : rest.foldlM (threadStep globals) acc1 = some r := h2
      cases hh : handleStmts globals th.name ⟨acc.1, [], [], []⟩ none
          th.instructions with
      | none =>
        have h4 : threadStep globals acc th = none := by
          unfold threadStep
          rw [hh]
          rfl
        rw [h4] at hstep
        cases hstep
      | some p =>
        obtain ⟨sEnd, fEnd⟩ := p
        have h4 : threadStep globals acc th
            = some (sEnd.g, acc.2 ++ [(sEnd.writes, sEnd.reads)]) := by
          unfold threadStep
          rw [hh]
          rfl
        rw [hstep] at h4
        rw [Option.some_inj] at h4
        subst h4
        have hB0 : BOk acc.1.nodes.length th.name ⟨acc.1, [], [], []⟩ :=
          BOk_intro hwf hpo (Nat.le_refl _)
            (fun n hn => absurd hn (List.not_mem_nil n))
            (fun n hn => absurd hn (List.not_mem_nil n))
            (fun n hn => absurd hn (List.not_mem_nil n))
        obtain ⟨hBE, hextE, hfE⟩ := handleStmts_ok globals th.name
          acc.1.nodes.length th.instructions ⟨acc.1, [], [], []⟩ none
          (sEnd, fEnd) hB0 firstOk_none hh
        obtain ⟨hwfE, hpoE, hloE, hlastE, hrdE, hwrE⟩ := hBE
        have hextE2 : NodesExt acc.1 sEnd.g := hextE
        have hsegNew : SegsFrom 0 sEnd.g.nodes.length
            (acc.2 ++ [(sEnd.writes, sEnd.reads)]) := by
          refine segsFrom_snoc hseg (Nat.zero_le _) (nodesExt_len_le hextE2) ?_ ?_
          · intro n hn
            exact ⟨(hwrE n hn).1, (hwrE n hn).2.1⟩
          · intro n hn
            exact ⟨(hrdE n hn).1, (hrdE n hn).2.1⟩
        have htnsNew : TnsOk sEnd.g (names0 ++ [th.name])
            (acc.2 ++ [(sEnd.writes, sEnd.reads)]) := by
          refine tnsOk_snoc (tnsOk_ext htns hextE2) ?_ ?_
          · intro n hn
            exact (hwrE n hn).2.2
          · intro n hn
            exact (hrdE n hn).2.2
        obtain ⟨k1, k2, k3, k4, k5⟩ := threads_fold_ok globals rest
          (sEnd.g, acc.2 ++ [(sEnd.writes, sEnd.reads)]) r
          (names0 ++ [th.name]) hwfE hpoE hsegNew htnsNew h3
        refine ⟨k1, k2, k3, ?_, nodesExt_trans hextE2 k5⟩
        rw [List.append_assoc] at k4
        simpa using k4

theorem updateEdge_creates (g : Aeg) (x y : Nat) (w : AegEdge) :
    ∃ e ∈ (updateEdge g x y w).edges, e.src = x ∧ e.tgt = y ∧ e.weight = w := by
  unfold updateEdge
  cases hf : findEdge g x y with
  | some i =>
    obtain ⟨hlt, hsrc, htgt⟩ := findEdge_eq_some hf
    exact ⟨⟨x, y, w⟩, List.mem_set g.edges i hlt ⟨x, y, w⟩, rfl, rfl, rfl⟩
  | none =>
    exact ⟨⟨x, y, w⟩, by simp, rfl, rfl, rfl⟩

theorem updateEdge_keep_cmp {g : Aeg} {e : AegE} (x y : Nat)
    (he : e ∈ g.edges) (hw : e.weight = .Competing) :
    ∃ e2 ∈ (updateEdge g x y .Competing).edges, e2.src = e.src ∧
      e2.tgt = e.tgt ∧ e2.weight = .Competing := by
  obtain ⟨e2, he2, hs, ht, hw2⟩ := updateEdge_mem_backward
    (a := x) (b := y) (w := .Competing) he
  refine ⟨e2, he2, hs, ht, ?_⟩
  rcases hw2 with h | h
  · rw [h, hw]
  · exact h

theorem nodeAt_eq_of_nodes_eq {g g2 : Aeg} (h : g2.nodes = g.nodes)
    (n : Nat) : nodeAt g2 n = nodeAt g n := by
  unfold nodeAt
  rw [h]

theorem addrAt_eq_of_nodes_eq {g g2 : Aeg} (h : g2.nodes = g.nodes)
    (n : Nat) : addrAt g2 n = addrAt g n := by
  unfold addrAt
  rw [nodeAt_eq_of_nodes_eq h]

theorem addrAt_of_nodeAt {g : Aeg} {n : Nat} {u : Node}
    (h : nodeAt g n = some u) : addrAt g n = u.address := by
  unfold addrAt
  rw [h]
  rfl

theorem goodCmp_of_nodes_eq {g g2 : Aeg} {a b : Nat} (h : g2.nodes = g.nodes)
    (hg : GoodCmp g a b) : GoodCmp g2 a b := by
  obtain ⟨u, v, hu, hv, h1, h2, h3⟩ := hg
  exact ⟨u, v, by rw [nodeAt_eq_of_nodes_eq h]; exact hu,
    by rw [nodeAt_eq_of_nodes_eq h]; exact hv, h1, h2, h3⟩

theorem goodCmp_symm {g : Aeg} {a b : Nat} (hg : GoodCmp g a b) :
    GoodCmp g b a := by
  obtain ⟨u, v, hu, hv, h1, h2, h3⟩ := hg
  exact ⟨v, u, hv, hu, h1.symm, h2.symm, h3.symm⟩

theorem cmpPair_ok {g : Aeg} {a b : Nat}
    (hwf : GraphWF g) (ha : a < g.nodes.length) (hb : b < g.nodes.length)
    (hab : a ≠ b) (hcmp : CmpOk g) (hgood : GoodCmp g a b) :
    GraphWF (cmpPair g a b) ∧ (cmpPair g a b).nodes = g.nodes ∧
    CmpOk (cmpPair g a b) := by
  have hwf1 : GraphWF (updateEdge g a b .Competing) := updateEdge_wf hwf ha hb hab
  have hn1 : (updateEdge g a b .Competing).nodes = g.nodes :=
    updateEdge_nodes g a b .Competing
  have hwf2 : GraphWF (cmpPair g a b) := by
    unfold cmpPair
    refine updateEdge_wf hwf1 ?_ ?_ (fun h => hab h.symm)
    · rw [hn1]
      exact hb
    · rw [hn1]
      exact ha
  have hn2 : (cmpPair g a b).nodes = g.nodes := by
    unfold cmpPair
    rw [updateEdge_nodes, hn1]
  refine ⟨hwf2, hn2, ?_⟩
  intro e he hw
  have he2 : e ∈ (updateEdge (updateEdge g a b .Competing) b a
      .Competing).edges := he
  rcases updateEdge_mem_forward he2 with he1 | ⟨hsrc, htgt, _⟩
  · rcases updateEdge_mem_forward he1 with he0 | ⟨hsrc, htgt, _⟩
    · obtain ⟨⟨e2, hm2, hs2, ht2, hw2⟩, hg2⟩ := hcmp e he0 hw
      obtain ⟨e3, hm3, hs3, ht3, hw3⟩ := updateEdge_keep_cmp a b hm2 hw2
      obtain ⟨e4, hm4, hs4, ht4, hw4⟩ := updateEdge_keep_cmp b a hm3 hw3
      refine ⟨⟨e4, hm4, ?_, ?_, hw4⟩, goodCmp_of_nodes_eq hn2 hg2⟩
      · rw [hs4, hs3, hs2]
      · rw [ht4, ht3, ht2]
    · obtain ⟨e3, hm3, hs3, ht3, hw3⟩ := updateEdge_creates
        (updateEdge g a b .Competing) b a .Competing
      refine ⟨⟨e3, hm3, ?_, ?_, hw3⟩, ?_⟩
      · rw [hs3, htgt]
      · rw [ht3, hsrc]
      · rw [hsrc, htgt]
        exact goodCmp_of_nodes_eq hn2 hgood
  · obtain ⟨e3, hm3, hs3, ht3, hw3⟩ := updateEdge_creates g a b .Competing
    obtain ⟨e4, hm4, hs4, ht4, hw4⟩ := updateEdge_keep_cmp b a hm3 hw3
    refine ⟨⟨e4, hm4, ?_, ?_, hw4⟩, ?_⟩
    · rw [hs4, hs3, htgt]
    · rw [ht4, ht3, hsrc]
    · rw [hsrc, htgt]
      exact goodCmp_of_nodes_eq hn2 (goodCmp_symm hgood)

theorem cmpFold_ok (others : List Nat) (w : Nat) (g0 gi : Aeg) (uW : Node)
    (hu : nodeAt g0 w = some uW) (huW : uW.isWrite = true)
    (hw : w < g0.nodes.length)
    (hfact : ∀ ow ∈ others, ow < g0.nodes.length ∧ w ≠ ow ∧
      ∃ v, nodeAt g0 ow = some v ∧ uW.threadName ≠ v.threadName)
    (hQ : GraphWF gi ∧ gi.nodes = g0.nodes ∧ CmpOk gi) :
    GraphWF (others.foldl (fun g ow =>
      if addrAt g ow = addrAt g w then cmpPair g w ow else g) gi) ∧
    (others.foldl (fun g ow =>
      if addrAt g ow = addrAt g w then cmpPair g w ow else g) gi).nodes
      = g0.nodes ∧
    CmpOk (others.foldl (fun g ow =>
      if addrAt g ow = addrAt g w then cmpPair g w ow else g) gi) := by
  refine foldl_inv
    (P := fun g2 => GraphWF g2 ∧ g2.nodes = g0.nodes ∧ CmpOk g2)
    others gi hQ ?_
  intro ow how g2 hP
  obtain ⟨hw2, hnodes2, hcmp2⟩ := hP
  split
  · rename_i haddr
    obtain ⟨hlt, hne, v, hv, hname⟩ := hfact ow how
    have hgood : GoodCmp g2 w ow := by
      refine ⟨uW, v, ?_, ?_, hname, ?_, Or.inl huW⟩
      · rw [nodeAt_eq_of_nodes_eq hnodes2]
        exact hu
      · rw [nodeAt_eq_of_nodes_eq hnodes2]
        exact hv
      · have h1 : addrAt g2 w = uW.address := by
          rw [addrAt_eq_of_nodes_eq hnodes2]
          exact addrAt_of_nodeAt hu
        have h2 : addrAt g2 ow = v.address := by
          rw [addrAt_eq_of_nodes_eq hnodes2]
          exact addrAt_of_nodeAt hv
        rw [← h1, ← h2, haddr]
    obtain ⟨k1, k2, k3⟩ := cmpPair_ok hw2 (by rw [hnodes2]; exact hw)
      (by rw [hnodes2]; exact hlt) hne hcmp2 hgood
    exact ⟨k1, by rw [k2, hnodes2], k3⟩
  · exact ⟨hw2, hnodes2, hcmp2⟩

theorem cmpPhase_ok {g0 : Aeg} {names : List Name} {tns : List ThreadNodes}
    (hwf : GraphWF g0) (hpo : AllPo g0)
    (hseg : SegsFrom 0 g0.nodes.length tns)
    (htns : TnsOk g0 names tns) (hnd : names.Nodup) :
    GraphWF (cmpPhase g0 tns) ∧ (cmpPhase g0 tns).nodes = g0.nodes ∧
    CmpOk (cmpPhase g0 tns) := by
  have hcmp0 : CmpOk g0 := by
    intro e he hw
    have h2 := hpo e he
    rw [h2] at hw
    cases hw
  unfold cmpPhase
  refine foldl_inv
    (P := fun g2 => GraphWF g2 ∧ g2.nodes = g0.nodes ∧ CmpOk g2)
    tns.enum g0 ⟨hwf, rfl, hcmp0⟩ ?_
  intro iwn hiwn g hP
  have hgetI : tns.get? iwn.1 = some iwn.2 := List.mem_enum_iff_get?.mp hiwn
  obtain ⟨nmI, hnmI, hWI, hRI⟩ := tnsOk_get htns iwn.1 iwn.2 hgetI
  refine foldl_inv
    (P := fun g2 => GraphWF g2 ∧ g2.nodes = g0.nodes ∧ CmpOk g2)
    iwn.2.1 g hP ?_
  intro w hwmem g2 hP2
  obtain ⟨mW, hmW⟩ := hWI w hwmem
  have hwlt : w < g0.nodes.length := nodeAt_lt hmW
  refine foldl_inv
    (P := fun g2 => GraphWF g2 ∧ g2.nodes = g0.nodes ∧ CmpOk g2)
    tns.enum g2 hP2 ?_
  intro jon hjon g3 hP3
  split
  · exact hP3
  · rename_i hij
    have hgetJ : tns.get? jon.1 = some jon.2 := List.mem_enum_iff_get?.mp hjon
    obtain ⟨nmJ, hnmJ, hWJ, hRJ⟩ := tnsOk_get htns jon.1 jon.2 hgetJ
    have hname : nmI ≠ nmJ := by
      intro hEq
      apply hij
      obtain ⟨hjlt, _⟩ := List.get?_eq_some.mp hnmJ
      refine List.get?_inj hjlt hnd ?_
      rw [hnmJ, hnmI, hEq]
    have hdisj : ∀ m, (m ∈ jon.2.1 ∨ m ∈ jon.2.2) → w ≠ m := by
      intro m hm
      by_cases hlt : iwn.1 < jon.1
      · exact Nat.ne_of_lt (segsFrom_lt hseg iwn.1 jon.1 iwn.2 jon.2 hlt
          hgetI hgetJ w (Or.inl hwmem) m hm)
      · have hlt2 : jon.1 < iwn.1 := by
          rcases Nat.lt_trichotomy jon.1 iwn.1 with h | h | h
          · exact h
          · exact absurd h hij
          · exact absurd h hlt
        exact (Nat.ne_of_lt (segsFrom_lt hseg jon.1 iwn.1 jon.2 iwn.2 hlt2
          hgetJ hgetI m hm w (Or.inl hwmem))).symm
    have hfactW : ∀ ow ∈ jon.2.1, ow < g0.nodes.length ∧ w ≠ ow ∧
        ∃ v, nodeAt g0 ow = some v ∧
          (Node.Write nmI mW).threadName ≠ v.threadName := by
      intro ow how
      obtain ⟨mO, hmO⟩ := hWJ ow how
      exact ⟨nodeAt_lt hmO, hdisj ow (Or.inl how),
        Node.Write nmJ mO, hmO, hname⟩
    have hfactR : ∀ ow ∈ jon.2.2, ow < g0.nodes.length ∧ w ≠ ow ∧
        ∃ v, nodeAt g0 ow = some v ∧
          (Node.Write nmI mW).threadName ≠ v.threadName := by
      intro ow how
      obtain ⟨mO, hmO⟩ := hRJ ow how
      exact ⟨nodeAt_lt hmO, hdisj ow (Or.inr how),
        Node.Read nmJ mO, hmO, hname⟩
    have hmid := cmpFold_ok jon.2.1 w g0 g3 (Node.Write nmI mW) hmW rfl
      hwlt hfactW hP3
    exact cmpFold_ok jon.2.2 w g0
      (jon.2.1.foldl (fun g ow =>
        if addrAt g ow = addrAt g w then cmpPair g w ow else g) g3)
      (Node.Write nmI mW) hmW rfl hwlt hfactR hmid

theorem cmpPair_wf {g : Aeg} {a b : Nat}
    (hwf : GraphWF g) (ha : a < g.nodes.length) (hb : b < g.nodes.length)
    (hab : a ≠ b) :
    GraphWF (cmpPair g a b) ∧ (cmpPair g a b).nodes = g.nodes := by
  have hwf1 : GraphWF (updateEdge g a b .Competing) := updateEdge_wf hwf ha hb hab
  have hn1 : (updateEdge g a b .Competing).nodes = g.nodes :=
    updateEdge_nodes g a b .Competing
  constructor
  · unfold cmpPair
    refine updateEdge_wf hwf1 ?_ ?_ (fun h => hab h.symm)
    · rw [hn1]
      exact hb
    · rw [hn1]
      exact ha
  · unfold cmpPair
    rw [updateEdge_nodes, hn1]

theorem cmpFold_wf (others : List Nat) (w : Nat) (g0 gi : Aeg)
    (hw : w < g0.nodes.length)
    (hfact : ∀ ow ∈ others, ow < g0.nodes.length ∧ w ≠ ow)
    (hQ : GraphWF gi ∧ gi.nodes = g0.nodes) :
    GraphWF (others.foldl (fun g ow =>
      if addrAt g ow = addrAt g w then cmpPair g w ow else g) gi) ∧
    (others.foldl (fun g ow =>
      if addrAt g ow = addrAt g w then cmpPair g w ow else g) gi).nodes
      = g0.nodes := by
  refine foldl_inv (P := fun g2 => GraphWF g2 ∧ g2.nodes = g0.nodes)
    others gi hQ ?_
  intro ow how g2 hP
  obtain ⟨hw2, hnodes2⟩ := hP
  split
  · obtain ⟨hlt, hne⟩ := hfact ow how
    obtain ⟨k1, k2⟩ := cmpPair_wf hw2 (by rw [hnodes2]; exact hw)
      (by rw [hnodes2]; exact hlt) hne
    exact ⟨k1, by rw [k2, hnodes2]⟩
  · exact ⟨hw2, hnodes2⟩

theorem cmpPhase_wf {g0 : Aeg} {tns : List ThreadNodes}
    (hwf : GraphWF g0) (hseg : SegsFrom 0 g0.nodes.length tns) :
    GraphWF (cmpPhase g0 tns) ∧ (cmpPhase g0 tns).nodes = g0.nodes := by
  unfold cmpPhase
  refine foldl_inv (P := fun g2 => GraphWF g2 ∧ g2.nodes = g0.nodes)
    tns.enum g0 ⟨hwf, rfl⟩ ?_
  intro iwn hiwn g hP
  have hgetI : tns.get? iwn.1 = some iwn.2 := List.mem_enum_iff_get?.mp hiwn
  have hmemI : iwn.2 ∈ tns := List.get?_mem hgetI
  refine foldl_inv (P := fun g2 => GraphWF g2 ∧ g2.nodes = g0.nodes)
    iwn.2.1 g hP ?_
  intro w hwmem g2 hP2
  have hwlt : w < g0.nodes.length :=
    segsFrom_ub hseg iwn.2 hmemI w (Or.inl hwmem)
  refine foldl_inv (P := fun g2 => GraphWF g2 ∧ g2.nodes = g0.nodes)
    tns.enum g2 hP2 ?_
  intro jon hjon g3 hP3
  split
  · exact hP3
  · rename_i hij
    have hgetJ : tns.get? jon.1 = some jon.2 := List.mem_enum_iff_get?.mp hjon
    have hmemJ : jon.2 ∈ tns := List.get?_mem hgetJ
    have hdisj : ∀ m, (m ∈ jon.2.1 ∨ m ∈ jon.2.2) → w ≠ m := by
      intro m hm
      by_cases hlt : iwn.1 < jon.1
      · exact Nat.ne_of_lt (segsFrom_lt hseg iwn.1 jon.1 iwn.2 jon.2 hlt
          hgetI hgetJ w (Or.inl hwmem) m hm)
      · have hlt2 : jon.1 < iwn.1 := by
          rcases Nat.lt_trichotomy jon.1 iwn.1 with h | h | h
          · exact h
          · exact absurd h hij
          · exact absurd h hlt
        exact (Nat.ne_of_lt (segsFrom_lt hseg jon.1 iwn.1 jon.2 iwn.2 hlt2
          hgetJ hgetI m hm w (Or.inl hwmem))).symm
    have hmid := cmpFold_wf jon.2.1 w g0 g3 hwlt
      (fun ow how => ⟨segsFrom_ub hseg jon.2 hmemJ ow (Or.inl how),
        hdisj ow (Or.inl how)⟩) hP3
    exact cmpFold_wf jon.2.2 w g0
      (jon.2.1.foldl (fun g ow =>
        if addrAt g ow = addrAt g w then cmpPair g w ow else g) g3)
      hwlt
      (fun ow how => ⟨segsFrom_ub hseg jon.2 hmemJ ow (Or.inr how),
        hdisj ow (Or.inr how)⟩) hmid

theorem emptyAeg_wf : GraphWF (⟨[], []⟩ : Aeg) := by
  refine ⟨?_, ?_, ?_⟩
  · intro e he
    cases he
  · intro e he
    cases he
  · unfold NoDupEdges
    simp

theorem createAeg_fold_ok {p : Program} {g : Aeg}
    (h : createAeg p = some g) :
    ∃ r : Aeg × List ThreadNodes,
      p.threads.foldlM (threadStep p.global_vars)
        (⟨⟨[], []⟩, []⟩ : Aeg × List ThreadNodes) = some r ∧
      g = cmpPhase r.1 r.2 ∧ GraphWF r.1 ∧ AllPo r.1 ∧
      SegsFrom 0 r.1.nodes.length r.2 ∧
      TnsOk r.1 (p.threads.map Thread.name) r.2 := by
  have h2 : (p.threads.foldlM (threadStep p.global_vars)
      (⟨⟨[], []⟩, []⟩ : Aeg × List ThreadNodes) >>= fun r =>
      some (cmpPhase r.1 r.2)) = some g := h
  cases hfold : p.threads.foldlM (threadStep p.global_vars)
      (⟨⟨[], []⟩, []⟩ : Aeg × List ThreadNodes) with
  | none =>
    rw [hfold] at h2
    cases h2
  | some r =>
    rw [hfold] at h2
    have h3 : some (cmpPhase r.1 r.2) = some g := h2
    rw [Option.some_inj] at h3
    subst h3
    obtain ⟨k1, k2, k3, k4, k5⟩ := threads_fold_ok p.global_vars p.threads
      ⟨⟨[], []⟩, []⟩ r [] emptyAeg_wf
      (fun e he => absurd he (List.not_mem_nil e)) trivial
      List.Forall₂.nil hfold
    exact ⟨r, rfl, rfl, k1, k2, k3, by simpa using k4⟩

/-- Every graph the builder returns is well formed (bounded edge
endpoints, no self loops, no duplicate directed edges). -/
theorem createAeg_wf {p : Program} {g : Aeg} (h : createAeg p = some g) :
    GraphWF g := by
  obtain ⟨r, hfold, hg, k1, k2, k3, k4⟩ := createAeg_fold_ok h
  subst hg
  exact (cmpPhase_wf k1 k3).1

/-- With pairwise distinct thread names, every Competing edge of a built
graph has its reverse twin and joins same-address events of different
threads, one of them a write. -/
theorem createAeg_cmpOk {p : Program} {g : Aeg}
    (hnd : (p.threads.map Thread.name).Nodup)
    (h : createAeg p = some g) : CmpOk g := by
  obtain ⟨r, hfold, hg, k1, k2, k3, k4⟩ := createAeg_fold_ok h
  subst hg
  exact (cmpPhase_ok k1 k2 k3 k4 hnd).2.2

/-- C9: every AEG produced by the builder is a simple directed graph:
no edge has equal source and target (the while back-jump skips would-be
self loops), and for every ordered pair of nodes there is at most one
edge, i.e. the source/target pairs of the edge list are pairwise
distinct. -/
theorem c9_simple_graph (p : Program) (g : Aeg)
    (h : createAeg p = some g) :
    (∀ e ∈ g.edges, e.src ≠ e.tgt) ∧
    (g.edges.map (fun e => (e.src, e.tgt))).Nodup := by
  obtain ⟨h1, h2, h3⟩ := createAeg_wf h
  exact ⟨h2, h3⟩

theorem c9_simple_graph_witness :
    createAeg storeBuffer = some storeBufferAeg ∧
    ((∀ e ∈ storeBufferAeg.edges, e.src ≠ e.tgt) ∧
      (storeBufferAeg.edges.map (fun e => (e.src, e.tgt))).Nodup) :=
  ⟨by decide, c9_simple_graph storeBuffer storeBufferAeg (by decide)⟩

/-- C3 (amended): in every AEG built from a program whose thread names
are pairwise distinct, each Competing edge u→v comes with the converse
Competing edge v→u, its endpoints carry different thread names and
equal addresses, and at least one endpoint is a Write (so two Reads
never compete).  The unamended claim, quantified over all programs,
fails for duplicate thread names (`c3_counterexample_dup_thread_names`). -/
theorem c3_competing_edges_amended (p : Program) (g : Aeg)
    (hnd : (p.threads.map Thread.name).Nodup)
    (h : createAeg p = some g) :
    ∀ e ∈ g.edges, e.weight = .Competing →
      (∃ e2 ∈ g.edges, e2.src = e.tgt ∧ e2.tgt = e.src ∧
        e2.weight = .Competing) ∧
      ∃ u v, nodeAt g e.src = some u ∧ nodeAt g e.tgt = some v ∧
        u.threadName ≠ v.threadName ∧ u.address = v.address ∧
        (u.isWrite = true ∨ v.isWrite = true) :=
  createAeg_cmpOk hnd h

theorem c3_competing_edges_amended_witness :
    (storeBuffer.threads.map Thread.name).Nodup ∧
    createAeg storeBuffer = some storeBufferAeg ∧
    (∀ e ∈ storeBufferAeg.edges, e.weight = .Competing →
      (∃ e2 ∈ storeBufferAeg.edges, e2.src = e.tgt ∧ e2.tgt = e.src ∧
        e2.weight = .Competing) ∧
      ∃ u v, nodeAt storeBufferAeg e.src = some u ∧
        nodeAt storeBufferAeg e.tgt = some v ∧
        u.threadName ≠ v.threadName ∧ u.address = v.address ∧
        (u.isWrite = true ∨ v.isWrite = true)) :=
  ⟨by decide, by decide,
    c3_competing_edges_amended storeBuffer storeBufferAeg (by decide) (by decide)⟩

end Toy
